import Mathlib

/-!
Shallow embedding of the postoga reconciliation, filtering, fragment-resolution
and haplotype-consensus code, with theorems checking the specified properties.

Tables are lists of typed rows; pandas NaN cells are `Option.none`; pandas
full outer joins are modelled by `outerMerge` (left rows in order, each
expanded by its key matches in right order, then unmatched right rows in
order, over a fresh positional index).
-/

namespace Postoga

/-- Decimal digit character for a value below ten. -/
def decDigit (n : Nat) : Char :=
  if n = 0 then '0' else if n = 1 then '1' else if n = 2 then '2' else if n = 3 then '3'
  else if n = 4 then '4' else if n = 5 then '5' else if n = 6 then '6' else if n = 7 then '7'
  else if n = 8 then '8' else '9'

/-- Fuel-driven base-ten digit expansion (structural recursion so that the
kernel can evaluate it; the fuel always suffices because n / 10 < n). -/
def decCharsAux : Nat → Nat → List Char
  | 0, _ => []
  | fuel + 1, n =>
    if n < 10 then [decDigit n]
    else decCharsAux fuel (n / 10) ++ [decDigit (n % 10)]

/-- Decimal character sequence of a natural number, most significant digit
first: the standard base-ten rendering that Python's str()/f-strings produce. -/
def decChars (n : Nat) : List Char :=
  decCharsAux (n + 1) n

/-- Decimal string of a natural number, modelling Python str(n). -/
def decimalStr (n : Nat) : String :=
  String.mk (decChars n)

/-- Substring test for a single-character needle, modelling Python's
`in` / pandas str.contains with a one-character literal pattern. -/
def containsChar (s : String) (c : Char) : Bool :=
  s.data.contains c

/-- Character-list split on a separator character (Python str.split with a
one-character separator): always returns at least one, possibly empty,
group. -/
def splitChars (sep : Char) : List Char → List (List Char)
  | [] => [[]]
  | c :: cs =>
    if c = sep then [] :: splitChars sep cs
    else
      match splitChars sep cs with
      | [] => [[c]]
      | g :: gs => (c :: g) :: gs

/-- String split on a separator character, modelling Python str.split("x"). -/
def splitOnChar (sep : Char) (s : String) : List String :=
  (splitChars sep s.data).map String.mk

/-- Separator join, modelling Python sep.join(parts). -/
def joinWith (sep : String) : List String → String
  | [] => ""
  | [s] => s
  | s :: rest => s ++ sep ++ joinWith sep rest

/-- One row of the orthology classification table
(ORTHOLOGY_CLASSIFICATION_COLS); cells other than the join key may be NaN. -/
structure OrthRow where
  reference_gene : Option String
  reference_transcript : Option String
  query_gene : Option String
  query_transcript : String
  orthology_class : Option String
  deriving DecidableEq

/-- One parsed row of the raw loss summary file (LOSS_SUMMARY_COLS). -/
structure RawLossRow where
  level : String
  query_transcript : String
  loss_status : String
  deriving DecidableEq

/-- One row of the level-filtered loss summary with the derived r_transcript
column. -/
structure LossRow where
  level : String
  query_transcript : String
  loss_status : String
  r_transcript : String
  deriving DecidableEq

/-- One parsed row of the raw orthology scores file (ORTHOLOGY_SCORE_COLS). -/
structure RawScoreRow where
  transcript : String
  chain : Nat
  orthology_score : Option Rat
  deriving DecidableEq

/-- One processed scores row, keyed by the derived query_transcript. -/
structure ScoreRow where
  query_transcript : String
  orthology_score : Option Rat
  transcript : String
  deriving DecidableEq

/-- Embeds load_and_filter_loss_summary: keep rows whose level equals the
filter value (default PROJECTION), preserving each row's original pandas
index, and set r_transcript to the first two "#"-separated segments of
query_transcript joined back with "#" (split("#")[:2] joined with "#"). -/
def load_and_filter_loss_summary (rows : List RawLossRow)
    (level_filter : String) : List (Nat × LossRow) :=
  ((rows.enum).filter (fun p => p.2.level == level_filter)).map
    (fun p => (p.1,
      { level := p.2.level, query_transcript := p.2.query_transcript,
        loss_status := p.2.loss_status,
        r_transcript := joinWith "#" ((splitOnChar '#' p.2.query_transcript).take 2) }))

/-- Embeds load_and_process_scores: derive query_transcript as
transcript ++ "#" ++ str(chain) and keep score and raw transcript columns. -/
def load_and_process_scores (rows : List RawScoreRow) : List ScoreRow :=
  rows.map (fun r =>
    { query_transcript := r.transcript ++ "#" ++ decimalStr r.chain,
      orthology_score := r.orthology_score, transcript := r.transcript })

/-- Row of the outer join of orthology and the filtered loss summary on
query_transcript. -/
structure Row1 where
  reference_gene : Option String
  reference_transcript : Option String
  query_gene : Option String
  query_transcript : String
  orthology_class : Option String
  level : Option String
  loss_status : Option String
  r_transcript : Option String
  deriving DecidableEq

/-- Row of the subsequent outer join with the processed scores table. -/
structure Row2 where
  reference_gene : Option String
  reference_transcript : Option String
  query_gene : Option String
  query_transcript : String
  orthology_class : Option String
  level : Option String
  loss_status : Option String
  r_transcript : Option String
  orthology_score : Option Rat
  transcript : Option String
  deriving DecidableEq

/-- Full outer join of two tables on string keys (pandas merge with
how outer, sort false): left rows in order, each expanded by its key
matches in right order; then right rows whose key has no left match, in
order. The result carries a fresh positional index. -/
def outerMerge {α β γ : Type} (keyL : α → String) (keyR : β → String)
    (combine : α → β → γ) (leftOnly : α → γ) (rightOnly : β → γ)
    (L : List α) (R : List β) : List γ :=
  (L.flatMap (fun a =>
    let ms := R.filter (fun b => keyR b == keyL a)
    if ms.isEmpty then [leftOnly a] else ms.map (fun b => combine a b)))
  ++ ((R.filter (fun b => !(L.any (fun a => keyL a == keyR b)))).map rightOnly)

/-- First stage of merge_and_fill_orthology_data: outer join of the orthology
classification and the filtered loss summary on query_transcript. -/
def mergeOrthLoss (orthology : List OrthRow) (loss : List (Nat × LossRow)) : List Row1 :=
  outerMerge (fun a => a.query_transcript) (fun b => b.2.query_transcript)
    (fun a b =>
      { reference_gene := a.reference_gene, reference_transcript := a.reference_transcript,
        query_gene := a.query_gene, query_transcript := a.query_transcript,
        orthology_class := a.orthology_class, level := some b.2.level,
        loss_status := some b.2.loss_status, r_transcript := some b.2.r_transcript })
    (fun a =>
      { reference_gene := a.reference_gene, reference_transcript := a.reference_transcript,
        query_gene := a.query_gene, query_transcript := a.query_transcript,
        orthology_class := a.orthology_class, level := none,
        loss_status := none, r_transcript := none })
    (fun b =>
      { reference_gene := none, reference_transcript := none,
        query_gene := none, query_transcript := b.2.query_transcript,
        orthology_class := none, level := some b.2.level,
        loss_status := some b.2.loss_status, r_transcript := some b.2.r_transcript })
    orthology loss

/-- Embeds the fillna of reference_transcript with the loss frame's
r_transcript series: pandas aligns the merged frame's fresh RangeIndex
(row position) with the loss frame's preserved file-position index, filling
only cells that are null and only at positions present in the loss index. -/
def fillRTFromLoss (merged : List Row1) (loss : List (Nat × LossRow)) : List Row1 :=
  (merged.enum).map (fun p =>
    if p.2.reference_transcript.isNone then
      { p.2 with reference_transcript :=
          (loss.find? (fun q => q.1 == p.1)).map (fun q => q.2.r_transcript) }
    else p.2)

/-- Embeds create_gene_mapping: dictionary from rows where both the key and
value columns are non-null (dropna, set_index, to_dict: on duplicate keys the
later row wins). -/
def create_gene_mapping {α : Type} (rows : List α) (key val : α → Option String) :
    String → Option String :=
  fun t => (rows.filterMap (fun r =>
    match key r, val r with
    | some k, some v => if k == t then some v else none
    | _, _ => none)).getLast?

/-- First-non-null choice, modelling Series.fillna(other) cell by cell. -/
def fillOpt (a b : Option String) : Option String :=
  match a with
  | some v => some v
  | none => b

/-- Embeds fill_gene_columns_with_mapping on the first-stage table: fill null
reference_gene and query_gene from the mapping looked up at
reference_transcript. -/
def fill_gene_columns1 (rows : List Row1) (mapping : String → Option String) : List Row1 :=
  rows.map (fun r =>
    let m := match r.reference_transcript with
      | some t => mapping t
      | none => none
    { r with reference_gene := fillOpt r.reference_gene m,
             query_gene := fillOpt r.query_gene m })

/-- Second stage of merge_and_fill_orthology_data: outer join with the
processed scores table on query_transcript. -/
def mergeScores (table : List Row1) (scores : List ScoreRow) : List Row2 :=
  outerMerge (fun a => a.query_transcript) (fun b => b.query_transcript)
    (fun a b =>
      { reference_gene := a.reference_gene, reference_transcript := a.reference_transcript,
        query_gene := a.query_gene, query_transcript := a.query_transcript,
        orthology_class := a.orthology_class, level := a.level,
        loss_status := a.loss_status, r_transcript := a.r_transcript,
        orthology_score := b.orthology_score, transcript := some b.transcript })
    (fun a =>
      { reference_gene := a.reference_gene, reference_transcript := a.reference_transcript,
        query_gene := a.query_gene, query_transcript := a.query_transcript,
        orthology_class := a.orthology_class, level := a.level,
        loss_status := a.loss_status, r_transcript := a.r_transcript,
        orthology_score := none, transcript := none })
    (fun b =>
      { reference_gene := none, reference_transcript := none,
        query_gene := none, query_transcript := b.query_transcript,
        orthology_class := none, level := none,
        loss_status := none, r_transcript := none,
        orthology_score := b.orthology_score, transcript := some b.transcript })
    table scores

/-- Embeds the self-aligned fillna of reference_transcript with the raw
transcript column after the scores join. -/
def fillRTFromTranscript (rows : List Row2) : List Row2 :=
  rows.map (fun r =>
    if r.reference_transcript.isNone then { r with reference_transcript := r.transcript }
    else r)

/-- Embeds fill_gene_columns_with_mapping on the second-stage table. -/
def fill_gene_columns2 (rows : List Row2) (mapping : String → Option String) : List Row2 :=
  rows.map (fun r =>
    let m := match r.reference_transcript with
      | some t => mapping t
      | none => none
    { r with reference_gene := fillOpt r.reference_gene m,
             query_gene := fillOpt r.query_gene m })

/-- Embeds merge_and_fill_orthology_data: the two outer joins with the two
gene-mapping fill passes and the two reference_transcript fillna steps. -/
def merge_and_fill_orthology_data (orthology : List OrthRow) (loss : List (Nat × LossRow))
    (scores : List ScoreRow) : List Row2 :=
  let table := fillRTFromLoss (mergeOrthLoss orthology loss) loss
  let tableF := fill_gene_columns1 table
    (create_gene_mapping table (fun r => r.reference_transcript) (fun r => r.reference_gene))
  let table2 := fillRTFromTranscript (mergeScores tableF scores)
  fill_gene_columns2 table2
    (create_gene_mapping table2 (fun r => r.reference_transcript) (fun r => r.reference_gene))

/-- Embeds apply_query_gene_overrides: rows whose query_transcript is a key of
the override dictionary get query_gene replaced by the mapped value. -/
def apply_query_gene_overrides (rows : List Row2) (mapping : List (String × String)) : List Row2 :=
  rows.map (fun r =>
    match mapping.find? (fun p => p.1 == r.query_transcript) with
    | some p => { r with query_gene := some p.2 }
    | none => r)

/-- One row of the reconciled output table (OUTPUT_TABLE_COLS). -/
structure OutRow where
  reference_gene : Option String
  reference_transcript : Option String
  query_gene : Option String
  query_transcript : String
  orthology_class : Option String
  loss_status : Option String
  orthology_score : Option Rat
  deriving DecidableEq

/-- Column selection of table_builder down to OUTPUT_TABLE_COLS. -/
def toOutRow (r : Row2) : OutRow :=
  { reference_gene := r.reference_gene, reference_transcript := r.reference_transcript,
    query_gene := r.query_gene, query_transcript := r.query_transcript,
    orthology_class := r.orthology_class, loss_status := r.loss_status,
    orthology_score := r.orthology_score }

/-- Per-row update of fill_query_genes_for_fragmented_projections: rows whose
query_transcript contains a literal dollar sign get query_gene set to
query_gene ++ "_" ++ query_transcript (pandas string concatenation with a NaN
query_gene yields NaN, hence Option.map); all other rows are unchanged. -/
def fragmentGeneStep (r : OutRow) : OutRow :=
  if containsChar r.query_transcript '$' then
    { r with query_gene := r.query_gene.map (fun g => g ++ "_" ++ r.query_transcript) }
  else r

/-- Embeds fill_query_genes_for_fragmented_projections. -/
def fill_query_genes_for_fragmented_projections (table : List OutRow) : List OutRow :=
  table.map fragmentGeneStep

/-- In-memory reconciliation pipeline of table_builder after the file loads:
merge and fill, apply overrides, select output columns, then rewrite
query_gene for fragmented projections. -/
def reconcile (orthology : List OrthRow) (loss : List (Nat × LossRow))
    (scores : List ScoreRow) (query_genes : List (String × String)) : List OutRow :=
  fill_query_genes_for_fragmented_projections
    ((apply_query_gene_overrides (merge_and_fill_orthology_data orthology loss scores)
        query_genes).map toOutRow)

/-- One row of the 12-column coordinate (BED) file: the identifier (4th
field) plus the remaining columns, which the filter carries through
untouched. -/
structure BedRow where
  id : String
  rest : List String
  deriving DecidableEq

/-- Helper key of a coordinate row: the part of the identifier before the
first dollar sign (load_query_annotation's id.split("$")[0] column). -/
def bedHelper (b : BedRow) : String :=
  (splitOnChar '$' b.id).headD ""

/-- Score comparison of the score filter: a null score never passes
(pandas NaN comparisons are false). -/
def score_ge (s : Option Rat) (threshold : Rat) : Bool :=
  match s with
  | some v => decide (threshold ≤ v)
  | none => false

/-- Strict score comparison of the paralog rule: a null score never counts. -/
def score_gt (s : Option Rat) (threshold : Rat) : Bool :=
  match s with
  | some v => decide (threshold < v)
  | none => false

/-- Comma-splitting of a filter parameter with whitespace stripping and
removal of empty entries. -/
def parseAllowed (s : String) : List String :=
  (splitOnChar ',' s).filterMap (fun k => if k.trim = "" then none else some k.trim)

/-- Score threshold step of filter_query_annotation (applied when the
parameter is not None). -/
def scoreStep (by_orthology_score : Option Rat) (table : List OutRow) : List OutRow :=
  match by_orthology_score with
  | none => table
  | some t => table.filter (fun r => score_ge r.orthology_score t)

/-- Row predicate of the class filter: isin over the parsed allow-list, with
a null class never passing. -/
def classPred (s : String) (r : OutRow) : Bool :=
  match r.orthology_class with
  | some c => (parseAllowed s).contains c
  | none => false

/-- Orthology-class step of filter_query_annotation (skipped when the
parameter is None or the empty string, matching Python truthiness). -/
def classStep (by_orthology_class : Option String) (table : List OutRow) : List OutRow :=
  match by_orthology_class with
  | none => table
  | some s => if s = "" then table else table.filter (classPred s)

/-- Row predicate of the loss-status filter. -/
def statusPred (s : String) (r : OutRow) : Bool :=
  match r.loss_status with
  | some c => (parseAllowed s).contains c
  | none => false

/-- Loss-status step of filter_query_annotation. -/
def statusStep (by_loss_status : Option String) (table : List OutRow) : List OutRow :=
  match by_loss_status with
  | none => table
  | some s => if s = "" then table else table.filter (statusPred s)

/-- Number of rows in the reference_transcript group of t whose score is
strictly above the paralog threshold. -/
def countAboveParalog (table : List OutRow) (t : String) (threshold : Rat) : Nat :=
  (table.filter (fun s => s.reference_transcript == some t)).countP
    (fun s => score_gt s.orthology_score threshold)

/-- Paralog rule of filter_query_annotation: pandas groupby on
reference_transcript (rows with a null key are dropped) filtered by
group-wise count of above-threshold scores being at most one, preserving
row order. -/
def paralog_filter_step (threshold : Rat) (table : List OutRow) : List OutRow :=
  table.filter (fun r =>
    match r.reference_transcript with
    | none => false
    | some t => decide (countAboveParalog table t threshold ≤ 1))

/-- Paralog step of filter_query_annotation (applied when the parameter is
not None). -/
def paralogStep (by_paralog_score : Option Rat) (table : List OutRow) : List OutRow :=
  match by_paralog_score with
  | none => table
  | some t => paralog_filter_step t table

/-- The four sequential tabular filters of filter_query_annotation in their
fixed order: score, class, status, paralog. -/
def tabular_filters (by_orthology_score : Option Rat) (by_orthology_class : Option String)
    (by_loss_status : Option String) (by_paralog_score : Option Rat)
    (table : List OutRow) : List OutRow :=
  paralogStep by_paralog_score
    (statusStep by_loss_status
      (classStep by_orthology_class
        (scoreStep by_orthology_score table)))

/-- Embeds filter_query_annotation (minus file I/O): run the tabular
filters, narrow the coordinate table to rows whose helper key survives,
then narrow the table back to keys present in the narrowed coordinate
table. Returns (written filtered coordinate table, filtered table). -/
def filter_query_annot (by_orthology_score : Option Rat) (by_orthology_class : Option String)
    (by_loss_status : Option String) (by_paralog_score : Option Rat)
    (table : List OutRow) (bed : List BedRow) : List BedRow × List OutRow :=
  let t := tabular_filters by_orthology_score by_orthology_class by_loss_status
    by_paralog_score table
  let fbed := bed.filter (fun b => t.any (fun r => r.query_transcript == bedHelper b))
  (fbed, t.filter (fun r => fbed.any (fun b => bedHelper b == r.query_transcript)))

/-- One row of the table updated by unfragment_projections: its projection
identifier and the fragments column (absent, hence none, when the
no-fragment short circuit is taken). -/
structure FragTableRow where
  projection : String
  fragments : Option Nat
  deriving DecidableEq

/-- Embeds append_fragment_suffix: if the identifier is a key of the counts
dictionary, bump its counter and append "#FG" plus the bumped counter;
otherwise return it unchanged. Returns the new identifier and the updated
dictionary. -/
def append_fragment_suffix (val : String) (counts : List (String × Nat)) :
    String × List (String × Nat) :=
  match counts.find? (fun p => p.1 == val) with
  | some p =>
    let idx := p.2 + 1
    (val ++ "#FG" ++ decimalStr idx,
     counts.map (fun q => if q.1 == val then (q.1, idx) else q))
  | none => (val, counts)

/-- Row-order application of append_fragment_suffix over the coordinate
identifiers, threading the mutable counts dictionary. -/
def rewriteBedIds : List String → List (String × Nat) → List String × List (String × Nat)
  | [], counts => ([], counts)
  | v :: rest, counts =>
    let s := append_fragment_suffix v counts
    let t := rewriteBedIds rest s.2
    (s.1 :: t.1, t.2)

/-- The initial fragment_count dictionary: identifiers occurring more than
once in the coordinate file, each mapped to zero. -/
def initFragmentCounts (bedIds : List String) : List (String × Nat) :=
  ((bedIds.dedup).filter (fun v => decide (1 < bedIds.count v))).map (fun v => (v, 0))

/-- The per-row fragments-column assignment of unfragment_projections:
fragment_count[projection] when the identifier is a dictionary key, else 0. -/
def fragUpdateRow (counts : List (String × Nat)) (r : FragTableRow) : FragTableRow :=
  let c := ((counts.find? (fun p => p.1 == r.projection)).map (fun p => p.2)).getD 0
  { r with fragments := some c }

/-- Embeds unfragment_projections (minus file I/O): when no identifier is
duplicated, pass both tables through unchanged; otherwise rewrite the
coordinate identifiers with fragment suffixes and add the fragments column
to the table from the final counts dictionary (0 for identifiers that are
not dictionary keys). -/
def unfragment_projections (table : List FragTableRow) (bedIds : List String) :
    List FragTableRow × List String :=
  let fragment_count := initFragmentCounts bedIds
  if fragment_count.isEmpty then (table, bedIds)
  else
    let rewritten := rewriteBedIds bedIds fragment_count
    (table.map (fragUpdateRow rewritten.2), rewritten.1)

/-- The rewritten identifiers at the positions whose original identifier is
v, in file order. -/
def idsAt (orig rewritten : List String) (v : String) : List String :=
  ((orig.zip rewritten).filter (fun p => p.1 == v)).map (fun p => p.2)

/-- One row of a haplotype loss table (loss_summ_data.tsv read with columns
projection, transcripts, class); the class cell is the value voted on. -/
structure HapRow where
  projection : Option String
  transcripts : String
  cls : String
  deriving DecidableEq

/-- Row of the two-table outer merge, with pandas collision suffixes. -/
structure PairRow where
  projection_x : Option String
  projection_y : Option String
  transcripts : String
  cls_x : Option String
  cls_y : Option String
  deriving DecidableEq

/-- Row of the N-way merge accumulator: per-source projection and class
columns, positionally indexed. -/
structure NRow where
  transcripts : String
  projs : List (Option String)
  classes : List (Option String)
  deriving DecidableEq

/-- One row of the written consensus table (loss source mode). -/
structure ConsRow where
  projection : Option String
  transcripts : String
  consensus : String
  deriving DecidableEq

/-- Python dict insertion: overwrite the value of an existing key in place,
or append a new binding. -/
def dict_insert (m : List (String × Nat)) (k : String) (v : Nat) : List (String × Nat) :=
  if m.any (fun p => p.1 == k) then m.map (fun p => if p.1 == k then (p.1, v) else p)
  else m ++ [(k, v)]

/-- Embeds get_haplotype_rules: enumerate the rule list into a dict (later
duplicates overwrite), then set the rank of "NF" to the number of distinct
keys so far. -/
def get_haplotype_rules (rule : List String) : List (String × Nat) :=
  let base := (rule.enum).foldl (fun m p => dict_insert m p.2 p.1) []
  dict_insert base "NF" base.length

/-- Rank lookup in the rules dictionary. The lookup is total only on the
dictionary's keys; Python raises KeyError elsewhere, so theorems confine
themselves to the key set. -/
def rank_of (m : List (String × Nat)) (c : String) : Nat :=
  ((m.find? (fun p => p.1 == c)).map (fun p => p.2)).getD 0

/-- Python min over a nonempty list with a key function: keeps the first
element achieving the minimal key. -/
def pyMin (rank : String → Nat) : String → List String → String
  | acc, [] => acc
  | acc, x :: xs => pyMin rank (if rank x < rank acc then x else acc) xs

/-- The two-table branch's explicit consensus case analysis. -/
def pairedConsensus (rank : String → Nat) (x y : String) : String :=
  if x = y then x
  else if rank x < rank y then x
  else y

/-- The N-way branch's consensus rule: Python min of the class list under
the rank (the empty case is unreachable: the list has one entry per input
table). -/
def nwayConsensus (rank : String → Nat) : List String → String
  | [] => "NF"
  | c :: cs => pyMin rank c cs

/-- Outer merge of the two haplotype tables on transcripts, with _x/_y
collision suffixes. -/
def pairMerge (t0 t1 : List HapRow) : List PairRow :=
  outerMerge (fun a => a.transcripts) (fun b => b.transcripts)
    (fun a b =>
      { projection_x := a.projection, projection_y := b.projection,
        transcripts := a.transcripts, cls_x := some a.cls, cls_y := some b.cls })
    (fun a =>
      { projection_x := a.projection, projection_y := none,
        transcripts := a.transcripts, cls_x := some a.cls, cls_y := none })
    (fun b =>
      { projection_x := none, projection_y := b.projection,
        transcripts := b.transcripts, cls_x := none, cls_y := some b.cls })
    t0 t1

/-- The two-table branch of merge_haplotypes (loss source): fill missing
class cells with "NF", elect the consensus row by row, back-fill
projection_x from projection_y, and select the output columns. -/
def pairedPath (t0 t1 : List HapRow) (rules : List (String × Nat)) : List ConsRow :=
  (pairMerge t0 t1).map (fun r =>
    let x := r.cls_x.getD "NF"
    let y := r.cls_y.getD "NF"
    { projection := fillOpt r.projection_x r.projection_y,
      transcripts := r.transcripts,
      consensus := pairedConsensus (rank_of rules) x y })

/-- Initial accumulator of the N-way merge: the first table's rows with
singleton per-source column lists. -/
def nwayInit (t0 : List HapRow) : List NRow :=
  t0.map (fun r =>
    { transcripts := r.transcripts, projs := [r.projection], classes := [some r.cls] })

/-- One step of the reduce of outer merges in the N-way branch; k is the
number of tables already merged, so unmatched right rows pad k null cells
on the left. -/
def nwayStep (k : Nat) (acc : List NRow) (t : List HapRow) : List NRow :=
  outerMerge (fun r => r.transcripts) (fun s => s.transcripts)
    (fun r s =>
      { transcripts := r.transcripts, projs := r.projs ++ [s.projection],
        classes := r.classes ++ [some s.cls] })
    (fun r =>
      { transcripts := r.transcripts, projs := r.projs ++ [none],
        classes := r.classes ++ [none] })
    (fun s =>
      { transcripts := s.transcripts,
        projs := List.replicate k none ++ [s.projection],
        classes := List.replicate k none ++ [some s.cls] })
    acc t

/-- The reduce of outer merges over the remaining tables. -/
def nwayMergeAll : List NRow → Nat → List (List HapRow) → List NRow
  | acc, _, [] => acc
  | acc, k, t :: ts => nwayMergeAll (nwayStep k acc t) (k + 1) ts

/-- The N-way branch of merge_haplotypes (loss source): merge all tables,
fill every missing cell with "NF", elect the consensus as the Python min of
the per-source class cells under the rules, then convert literal "NF"
projection cells back to null and back-fill projection_0 left to right. -/
def nwayPath (t0 : List HapRow) (rest : List (List HapRow))
    (rules : List (String × Nat)) : List ConsRow :=
  (nwayMergeAll (nwayInit t0) 1 rest).map (fun r =>
    let filled := r.classes.map (fun o => o.getD "NF")
    let projsF := r.projs.map (fun o =>
      match o with
      | some v => if v = "NF" then none else some v
      | none => none)
    { projection := (projsF.filterMap id).head?,
      transcripts := r.transcripts,
      consensus := nwayConsensus (rank_of rules) filled })

/-- Embeds merge_haplotypes (loss source): fewer than two tables raise
(none); exactly two take the explicit paired branch; more than two take
the N-way reduce branch. -/
def merge_haplotypes (tables : List (List HapRow)) (rule : List String) :
    Option (List ConsRow) :=
  if tables.length < 2 then none
  else if 2 < tables.length then
    match tables with
    | t0 :: rest => some (nwayPath t0 rest (get_haplotype_rules rule))
    | [] => none
  else
    match tables with
    | [t0, t1] => some (pairedPath t0 t1 (get_haplotype_rules rule))
    | _ => none

/-- The class value a haplotype table contributes for a transcript key:
the class of its first row with that key, if any. -/
def classOf (t : List HapRow) (k : String) : Option String :=
  (t.find? (fun r => r.transcripts == k)).map (fun r => r.cls)

/-- Example reconciled row carrying a fragment marker in its
query_transcript. -/
def exFragRow : OutRow :=
  { reference_gene := some "rg", reference_transcript := some "rt",
    query_gene := some "g", query_transcript := "tx$F1",
    orthology_class := some "o2o", loss_status := some "I",
    orthology_score := some 1 }

/-- Example reconciled table with one singly-projected reference transcript
and one reference transcript with two high-scoring competing projections. -/
def exFilterTable : List OutRow :=
  [{ reference_gene := some "gA", reference_transcript := some "A",
     query_gene := some "qA", query_transcript := "a#1",
     orthology_class := some "o2o", loss_status := some "I",
     orthology_score := some 1 },
   { reference_gene := some "gB", reference_transcript := some "B",
     query_gene := some "qB", query_transcript := "b#1",
     orthology_class := some "o2o", loss_status := some "I",
     orthology_score := some 1 },
   { reference_gene := some "gB", reference_transcript := some "B",
     query_gene := some "qB", query_transcript := "b#2",
     orthology_class := some "o2m", loss_status := some "I",
     orthology_score := some (mkRat 9 10) }]

/-- Example coordinate identifiers: G1 fragmented three times, G2 once
(the example scenario of the specification). -/
def exBedIds : List String :=
  ["G1", "G2", "G1", "G1"]

/-- Example unified table rows keyed by the coordinate identifiers. -/
def exFragTable : List FragTableRow :=
  [{ projection := "G1", fragments := none },
   { projection := "G2", fragments := none }]

/-- Example orthology classification row. -/
def exOrthRow : OrthRow :=
  { reference_gene := some "g1", reference_transcript := some "r1",
    query_gene := some "q1", query_transcript := "a#1", orthology_class := some "o2o" }

/-- Example filtered loss summary row. -/
def exLossRow : LossRow :=
  { level := "PROJECTION", query_transcript := "b#1", loss_status := "I",
    r_transcript := "b#1" }

/-- Example processed scores row. -/
def exScoreRow : ScoreRow :=
  { query_transcript := "c#1", orthology_score := some 1, transcript := "c" }

/-- Example haplotype tables for the consensus-merge theorems: three
assemblies with partially overlapping transcript keys. -/
def exHapTables : List (List HapRow) :=
  [[{ projection := some "p1", transcripts := "tx1", cls := "I" }],
   [{ projection := none, transcripts := "tx1", cls := "L" },
    { projection := some "p2", transcripts := "tx2", cls := "NF" }],
   [{ projection := some "p3", transcripts := "tx3", cls := "PI" }]]

/-! ## Helper lemmas -/

theorem snd_mem_of_mem_enum {α : Type} {l : List α} {p : Nat × α}
    (h : p ∈ l.enum) : p.2 ∈ l :=
  List.getElem?_mem (List.mem_enum_iff_getElem?.mp h)

theorem decDigit_inj : ∀ a, a < 10 → ∀ b, b < 10 → decDigit a = decDigit b → a = b := by
  decide

theorem decCharsAux_congr : ∀ fuel fuel' n, n < fuel → n < fuel' →
    decCharsAux fuel n = decCharsAux fuel' n := by
  intro fuel
  induction fuel with
  | zero => omega
  | succ f ih =>
    intro fuel' n hn hn'
    cases fuel' with
    | zero => omega
    | succ f2 =>
      show decCharsAux (f + 1) n = decCharsAux (f2 + 1) n
      rw [decCharsAux, decCharsAux]
      by_cases h : n < 10
      · rw [if_pos h, if_pos h]
      · rw [if_neg h, if_neg h]
        have hd : n / 10 < n := Nat.div_lt_self (by omega) (by omega)
        rw [ih f2 (n / 10) (by omega) (by omega)]

theorem decChars_def (n : Nat) :
    decChars n = if n < 10 then [decDigit n]
      else decChars (n / 10) ++ [decDigit (n % 10)] := by
  show decCharsAux (n + 1) n = _
  rw [decCharsAux]
  by_cases h : n < 10
  · rw [if_pos h, if_pos h]
  · rw [if_neg h, if_neg h]
    have hd : n / 10 < n := Nat.div_lt_self (by omega) (by omega)
    rw [decCharsAux_congr n (n / 10 + 1) (n / 10) (by omega) (by omega)]
    rfl

theorem decChars_ne_nil (n : Nat) : decChars n ≠ [] := by
  rw [decChars_def]
  by_cases h : n < 10
  · simp [h]
  · simp [h]

theorem decChars_length_ge_two {n : Nat} (h : ¬ n < 10) : 2 ≤ (decChars n).length := by
  rw [decChars_def, if_neg h]
  have hne := decChars_ne_nil (n / 10)
  cases hc : decChars (n / 10) with
  | nil => exact absurd hc hne
  | cons a l => simp

theorem decChars_inj : ∀ a : Nat, ∀ b : Nat, decChars a = decChars b → a = b := by
  intro a
  induction a using Nat.strong_induction_on with
  | _ a ih =>
    intro b h
    by_cases ha : a < 10 <;> by_cases hb : b < 10
    · rw [decChars_def, if_pos ha, decChars_def, if_pos hb] at h
      exact decDigit_inj a ha b hb (List.singleton_inj.mp h)
    · have h2 := decChars_length_ge_two hb
      rw [← h, decChars_def, if_pos ha] at h2
      simp at h2
    · have h2 := decChars_length_ge_two ha
      rw [h, decChars_def, if_pos hb] at h2
      simp at h2
    · have ha2 : decChars a = decChars (a / 10) ++ [decDigit (a % 10)] := by
        rw [decChars_def]
        rw [if_neg ha]
      have hb2 : decChars b = decChars (b / 10) ++ [decDigit (b % 10)] := by
        rw [decChars_def]
        rw [if_neg hb]
      rw [ha2, hb2] at h
      have hrev := congrArg List.reverse h
      simp only [List.reverse_append, List.reverse_cons, List.reverse_nil,
        List.nil_append, List.cons_append, List.cons.injEq] at hrev
      obtain ⟨hdig, htailrev⟩ := hrev
      have htail : decChars (a / 10) = decChars (b / 10) :=
        List.reverse_injective htailrev
      have hdiv : a / 10 = b / 10 :=
        ih (a / 10) (Nat.div_lt_self (by omega) (by omega)) (b / 10) htail
      have hmod : a % 10 = b % 10 :=
        decDigit_inj (a % 10) (by omega) (b % 10) (by omega) hdig
      omega

theorem decimalStr_inj {a b : Nat} (h : decimalStr a = decimalStr b) : a = b :=
  decChars_inj a b (congrArg String.data h)

theorem find?_update_ne (counts : List (String × Nat)) (u v : String) (idx : Nat)
    (huv : u ≠ v) :
    (counts.map (fun q => if q.1 == u then (q.1, idx) else q)).find? (fun p => p.1 == v)
      = counts.find? (fun p => p.1 == v) := by
  induction counts with
  | nil => rfl
  | cons c cs ih =>
    rw [List.map_cons]
    by_cases hv : c.1 = v
    · have hcu : (c.1 == u) = false := by
        rw [beq_eq_false_iff_ne]
        intro heq
        exact huv (by rw [← heq, hv])
      rw [if_neg (by rw [hcu]; exact Bool.false_ne_true)]
      rw [List.find?_cons, List.find?_cons]
      have hcv : (c.1 == v) = true := by
        rw [beq_iff_eq]
        exact hv
      rw [hcv]
    · by_cases hcu : c.1 = u
      · rw [if_pos (by rw [beq_iff_eq]; exact hcu)]
        rw [List.find?_cons, List.find?_cons]
        have h2 : (c.1 == v) = false := by
          rw [beq_eq_false_iff_ne]
          exact hv
        rw [h2]
        exact ih
      · rw [if_neg (by simp [hcu])]
        rw [List.find?_cons, List.find?_cons]
        have h2 : (c.1 == v) = false := by
          rw [beq_eq_false_iff_ne]
          exact hv
        rw [h2]
        exact ih

theorem find?_update_self (counts : List (String × Nat)) (v : String) (idx : Nat)
    (h : (counts.find? (fun p => p.1 == v)).isSome) :
    (counts.map (fun q => if q.1 == v then (q.1, idx) else q)).find? (fun p => p.1 == v)
      = some (v, idx) := by
  induction counts with
  | nil => simp at h
  | cons c cs ih =>
    rw [List.map_cons]
    by_cases hc : c.1 = v
    · rw [if_pos (by rw [beq_iff_eq]; exact hc)]
      rw [List.find?_cons]
      have h1 : (c.1 == v) = true := by
        rw [beq_iff_eq]
        exact hc
      rw [h1]
      rw [hc]
    · rw [if_neg (by simp [hc])]
      have h2 : (c.1 == v) = false := by
        rw [beq_eq_false_iff_ne]
        exact hc
      simp only [List.find?_cons, h2] at h ⊢
      exact ih h

theorem append_fragment_suffix_keys (val : String) (counts : List (String × Nat)) :
    ((append_fragment_suffix val counts).2).map Prod.fst = counts.map Prod.fst := by
  unfold append_fragment_suffix
  cases hf : counts.find? (fun p => p.1 == val) with
  | none => rfl
  | some p =>
    simp only [List.map_map]
    refine List.map_congr_left (fun q _hq => ?_)
    by_cases h : q.1 = val
    · simp [h]
    · simp [h]

theorem rewriteBedIds_keys (ids : List String) (counts : List (String × Nat)) :
    ((rewriteBedIds ids counts).2).map Prod.fst = counts.map Prod.fst := by
  induction ids generalizing counts with
  | nil => rfl
  | cons v rest ih =>
    rw [rewriteBedIds]
    exact (ih (append_fragment_suffix v counts).2).trans
      (append_fragment_suffix_keys v counts)

theorem find?_key_none_iff (counts : List (String × Nat)) (u : String) :
    counts.find? (fun p => p.1 == u) = none ↔ u ∉ counts.map Prod.fst := by
  rw [List.find?_eq_none]
  simp only [List.mem_map, beq_iff_eq]
  constructor
  · rintro h ⟨p, hp, hpu⟩
    exact h p hp hpu
  · intro h p hp hpu
    exact h ⟨p, hp, hpu⟩

theorem rewriteBedIds_spec (ids : List String) (counts : List (String × Nat))
    (v : String) (c : Nat)
    (h : counts.find? (fun p => p.1 == v) = some (v, c)) :
    idsAt ids (rewriteBedIds ids counts).1 v
      = (List.range (ids.count v)).map (fun i => v ++ "#FG" ++ decimalStr (c + i + 1))
    ∧ (rewriteBedIds ids counts).2.find? (fun p => p.1 == v)
      = some (v, c + ids.count v) := by
  induction ids generalizing counts c with
  | nil => simp [rewriteBedIds, idsAt, h]
  | cons w rest ih =>
    rw [rewriteBedIds]
    by_cases hw : w = v
    · subst hw
      have hfind : (append_fragment_suffix w counts).1
          = w ++ "#FG" ++ decimalStr (c + 1) := by
        unfold append_fragment_suffix
        rw [h]
      have hupd : (append_fragment_suffix w counts).2.find? (fun p => p.1 == w)
          = some (w, c + 1) := by
        unfold append_fragment_suffix
        rw [h]
        exact find?_update_self counts w (c + 1) (by rw [h]; rfl)
      obtain ⟨ih1, ih2⟩ := ih (append_fragment_suffix w counts).2 (c + 1) hupd
      constructor
      · rw [idsAt]
        simp only [List.zip_cons_cons, List.filter_cons, beq_self_eq_true, if_pos,
          List.map_cons]
        rw [hfind]
        have hc1 : (w :: rest).count w = rest.count w + 1 := by
          simp [List.count_cons]
        rw [hc1, List.range_succ_eq_map, List.map_cons, List.map_map]
        congr 1
        rw [idsAt] at ih1
        rw [ih1]
        refine List.map_congr_left (fun i _hi => ?_)
        have : c + 1 + i + 1 = c + (i + 1) + 1 := by omega
        simp [Function.comp, Nat.succ_eq_add_one, this]
      · have hc1 : (w :: rest).count w = rest.count w + 1 := by
          simp [List.count_cons]
        rw [hc1, ih2]
        congr 2
        omega
    · have hpres : (append_fragment_suffix w counts).2.find? (fun p => p.1 == v)
          = some (v, c) := by
        unfold append_fragment_suffix
        cases hf : counts.find? (fun p => p.1 == w) with
        | none => exact h
        | some p => rw [find?_update_ne counts w v _ hw]; exact h
      obtain ⟨ih1, ih2⟩ := ih (append_fragment_suffix w counts).2 c hpres
      have hc1 : (w :: rest).count v = rest.count v := by
        simp [List.count_cons, hw]
      constructor
      · rw [idsAt]
        simp only [List.zip_cons_cons, List.filter_cons]
        have hwv : (w == v) = false := by simp [hw]
        rw [hwv]
        simp only [Bool.false_eq_true, if_neg]
        rw [hc1]
        rw [idsAt] at ih1
        exact ih1
      · rw [hc1]
        exact ih2

theorem mem_map_key_find (l : List String) (v : String) (hv : v ∈ l) :
    (l.map (fun u => (u, 0))).find? (fun p => p.1 == v) = some (v, 0) := by
  induction l with
  | nil => simp at hv
  | cons u rest ih =>
    by_cases hu : u = v
    · subst hu
      rw [List.map_cons]
      rw [List.find?_cons_of_pos _ (by simp)]
    · rw [List.mem_cons] at hv
      rcases hv with hv | hv
      · exact absurd hv.symm hu
      · rw [List.map_cons]
        rw [List.find?_cons_of_neg _ (by simp [hu])]
        exact ih hv

theorem mem_outerMerge {α β γ : Type} (keyL : α → String) (keyR : β → String)
    (combine : α → β → γ) (leftOnly : α → γ) (rightOnly : β → γ)
    (L : List α) (R : List β) (c : γ) :
    c ∈ outerMerge keyL keyR combine leftOnly rightOnly L R
      ↔ (∃ a, a ∈ L ∧ ∃ b, b ∈ R ∧ keyR b = keyL a ∧ c = combine a b)
        ∨ (∃ a, a ∈ L ∧ (∀ b ∈ R, keyR b ≠ keyL a) ∧ c = leftOnly a)
        ∨ (∃ b, b ∈ R ∧ (∀ a ∈ L, keyL a ≠ keyR b) ∧ c = rightOnly b) := by
  unfold outerMerge
  rw [List.mem_append, List.mem_flatMap]
  constructor
  · rintro (⟨a, ha, hc⟩ | hc)
    · by_cases hms : (R.filter (fun b => keyR b == keyL a)).isEmpty
      · rw [if_pos hms] at hc
        rw [List.mem_singleton] at hc
        refine Or.inr (Or.inl ⟨a, ha, ?_, hc⟩)
        intro b hb hkey
        rw [List.isEmpty_iff] at hms
        have hbmem : b ∈ R.filter (fun b => keyR b == keyL a) := by
          rw [List.mem_filter]
          exact ⟨hb, by simp [hkey]⟩
        rw [hms] at hbmem
        simp at hbmem
      · rw [if_neg hms] at hc
        rw [List.mem_map] at hc
        obtain ⟨b, hb, hcb⟩ := hc
        rw [List.mem_filter] at hb
        exact Or.inl ⟨a, ha, b, hb.1, by simpa using hb.2, hcb.symm⟩
    · rw [List.mem_map] at hc
      obtain ⟨b, hb, hcb⟩ := hc
      rw [List.mem_filter] at hb
      refine Or.inr (Or.inr ⟨b, hb.1, ?_, hcb.symm⟩)
      intro a ha hkey
      have hany := hb.2
      rw [Bool.not_eq_eq_eq_not, Bool.not_true, List.any_eq_false] at hany
      exact (hany a ha) (by simp [hkey])
  · rintro (⟨a, ha, b, hb, hkey, hcc⟩ | ⟨a, ha, hnone, hcc⟩ | ⟨b, hb, hnone, hcc⟩)
    · left
      refine ⟨a, ha, ?_⟩
      have hbmem : b ∈ R.filter (fun b2 => keyR b2 == keyL a) := by
        rw [List.mem_filter]
        exact ⟨hb, by simp [hkey]⟩
      rw [if_neg (by rw [List.isEmpty_iff]; intro hemp; rw [hemp] at hbmem; simp at hbmem)]
      rw [List.mem_map]
      exact ⟨b, hbmem, hcc.symm⟩
    · left
      refine ⟨a, ha, ?_⟩
      have hemp : (R.filter (fun b2 => keyR b2 == keyL a)) = [] := by
        rw [List.filter_eq_nil_iff]
        intro b2 hb2
        simp only [beq_iff_eq]
        exact hnone b2 hb2
      rw [if_pos (by rw [hemp]; rfl)]
      rw [List.mem_singleton]
      exact hcc
    · right
      rw [List.mem_map]
      refine ⟨b, ?_, hcc.symm⟩
      rw [List.mem_filter]
      refine ⟨hb, ?_⟩
      rw [Bool.not_eq_eq_eq_not, Bool.not_true, List.any_eq_false]
      intro a ha
      simp only [beq_iff_eq]
      exact hnone a ha

theorem apply_overrides_mem {rows : List Row2} {m : List (String × String)} {r : Row2}
    (h : r ∈ apply_query_gene_overrides rows m) :
    ∃ x, x ∈ rows ∧ r.orthology_score = x.orthology_score
      ∧ r.query_transcript = x.query_transcript := by
  unfold apply_query_gene_overrides at h
  rw [List.mem_map] at h
  obtain ⟨x, hx, hxr⟩ := h
  subst hxr
  refine ⟨x, hx, ?_, ?_⟩ <;>
    cases hf : m.find? (fun p => p.1 == x.query_transcript) <;> simp [hf]

theorem fill_gene_columns2_mem {rows : List Row2} {mp : String → Option String} {r : Row2}
    (h : r ∈ fill_gene_columns2 rows mp) :
    ∃ x, x ∈ rows ∧ r.orthology_score = x.orthology_score
      ∧ r.query_transcript = x.query_transcript := by
  unfold fill_gene_columns2 at h
  rw [List.mem_map] at h
  obtain ⟨x, hx, hxr⟩ := h
  subst hxr
  exact ⟨x, hx, rfl, rfl⟩

theorem fillRTFromTranscript_mem {rows : List Row2} {r : Row2}
    (h : r ∈ fillRTFromTranscript rows) :
    ∃ x, x ∈ rows ∧ r.orthology_score = x.orthology_score
      ∧ r.query_transcript = x.query_transcript := by
  unfold fillRTFromTranscript at h
  rw [List.mem_map] at h
  obtain ⟨x, hx, hxr⟩ := h
  subst hxr
  refine ⟨x, hx, ?_, ?_⟩ <;>
    by_cases hn : x.reference_transcript.isNone <;> simp [hn]

theorem fragmentGeneStep_score (x : OutRow) :
    (fragmentGeneStep x).orthology_score = x.orthology_score
      ∧ (fragmentGeneStep x).query_transcript = x.query_transcript := by
  unfold fragmentGeneStep
  by_cases h : containsChar x.query_transcript (Char.ofNat 36) = true
  · rw [if_pos h]
    exact ⟨rfl, rfl⟩
  · rw [if_neg h]
    exact ⟨rfl, rfl⟩

theorem countP_key_map {α β : Type} (key1 : α → String) (key2 : β → String)
    (f : α → β) (l : List α) (t : String) (hf : ∀ r, key2 (f r) = key1 r) :
    (l.map f).countP (fun x => key2 x == t) = l.countP (fun r => key1 r == t) := by
  rw [List.countP_map]
  refine List.countP_congr (fun r _hr => ?_)
  simp [Function.comp, hf r]

theorem countP_key_enumFrom_map {α β : Type} (key1 : α → String) (key2 : β → String)
    (g : Nat × α → β) (l : List α) (n : Nat) (t : String)
    (hg : ∀ i r, key2 (g (i, r)) = key1 r) :
    ((l.enumFrom n).map g).countP (fun x => key2 x == t)
      = l.countP (fun r => key1 r == t) := by
  induction l generalizing n with
  | nil => rfl
  | cons a l ih =>
    rw [List.enumFrom_cons, List.map_cons, List.countP_cons, List.countP_cons, ih]
    congr 1
    simp [hg n a]

theorem countP_outerMerge {α β γ : Type} (keyL : α → String) (keyR : β → String)
    (keyC : γ → String) (combine : α → β → γ) (leftOnly : α → γ) (rightOnly : β → γ)
    (L : List α) (R : List β) (t : String)
    (hco : ∀ a b, keyC (combine a b) = keyL a)
    (hlo : ∀ a, keyC (leftOnly a) = keyL a)
    (hro : ∀ b, keyC (rightOnly b) = keyR b) :
    (outerMerge keyL keyR combine leftOnly rightOnly L R).countP (fun c => keyC c == t)
      = L.countP (fun a => keyL a == t) * max 1 (R.countP (fun b => keyR b == t))
        + (if L.countP (fun a => keyL a == t) = 0
           then R.countP (fun b => keyR b == t) else 0) := by
  unfold outerMerge
  rw [List.countP_append]
  have hbind : ∀ (L2 : List α),
      (L2.flatMap (fun a =>
        if (R.filter (fun b => keyR b == keyL a)).isEmpty then [leftOnly a]
        else (R.filter (fun b => keyR b == keyL a)).map (fun b => combine a b))).countP
          (fun c => keyC c == t)
      = L2.countP (fun a => keyL a == t)
          * max 1 (R.countP (fun b => keyR b == t)) := by
    intro L2
    induction L2 with
    | nil => simp
    | cons a L2 ih =>
      rw [List.flatMap_cons, List.countP_append, ih, List.countP_cons]
      by_cases hka : keyL a = t
      · have h2 : (keyL a == t) = true := by simp [hka]
        rw [h2]
        by_cases hRe : (R.filter (fun b => keyR b == keyL a)).isEmpty
        · have hR0 : R.countP (fun b => keyR b == t) = 0 := by
            rw [List.countP_eq_zero]
            intro b hb hbt
            rw [List.isEmpty_iff, List.filter_eq_nil_iff] at hRe
            exact hRe b hb (by rw [hka]; exact hbt)
          have h1 : List.countP (fun c => keyC c == t) [leftOnly a] = 1 := by
            simp [hlo a, hka]
          rw [if_pos hRe, h1, hR0]
          rw [show (max 1 0 : Nat) = 1 from rfl, if_pos rfl]
          omega
        · rw [if_neg hRe]
          have hmsc : List.countP (fun c => keyC c == t)
              ((R.filter (fun b => keyR b == keyL a)).map (fun b => combine a b))
              = R.countP (fun b => keyR b == t) := by
            rw [List.countP_map]
            have hall : ∀ b ∈ R.filter (fun b2 => keyR b2 == keyL a),
                ((fun c => keyC c == t) ∘ (fun b2 => combine a b2)) b = true := by
              intro b _hb
              simp [Function.comp, hco a b, hka]
            rw [List.countP_eq_length.mpr hall, ← List.countP_eq_length_filter]
            refine List.countP_congr (fun b _hb => ?_)
            rw [hka]
          rw [hmsc]
          have hRpos : 0 < R.countP (fun b => keyR b == t) := by
            cases hfil : R.filter (fun b2 => keyR b2 == keyL a) with
            | nil => rw [List.isEmpty_iff] at hRe; exact absurd hfil hRe
            | cons b bs =>
              have hbmem : b ∈ R.filter (fun b2 => keyR b2 == keyL a) := by
                rw [hfil]
                exact List.mem_cons_self b bs
              rw [List.mem_filter] at hbmem
              refine List.countP_pos_iff.mpr ⟨b, hbmem.1, ?_⟩
              rw [← hka]
              exact hbmem.2
          have hM : max 1 (R.countP (fun b => keyR b == t))
              = R.countP (fun b => keyR b == t) := by omega
          rw [hM, if_pos rfl]
          ring
      · have h2 : (keyL a == t) = false := by simp [hka]
        rw [h2]
        by_cases hRe : (R.filter (fun b => keyR b == keyL a)).isEmpty
        · rw [if_pos hRe]
          have h1 : List.countP (fun c => keyC c == t) [leftOnly a] = 0 := by
            simp [hlo a, hka]
          rw [h1]
          simp
        · rw [if_neg hRe]
          have h1 : List.countP (fun c => keyC c == t)
              ((R.filter (fun b => keyR b == keyL a)).map (fun b => combine a b)) = 0 := by
            rw [List.countP_map, List.countP_eq_zero]
            intro b _hb
            simp [Function.comp, hco a b, hka]
          rw [h1]
          simp
  rw [hbind]
  have hright : ((R.filter (fun b => !(L.any (fun a => keyL a == keyR b)))).map
        rightOnly).countP (fun c => keyC c == t)
      = if L.countP (fun a => keyL a == t) = 0
        then R.countP (fun b => keyR b == t) else 0 := by
    rw [List.countP_map, List.countP_filter]
    by_cases hL0 : L.countP (fun a => keyL a == t) = 0
    · rw [if_pos hL0]
      refine List.countP_congr (fun b _hb => ?_)
      by_cases hbt : keyR b = t
      · have hany : (L.any fun a => keyL a == t) = false := by
          rw [List.any_eq_false]
          intro a ha
          rw [List.countP_eq_zero] at hL0
          exact hL0 a ha
        simp [Function.comp, hro b, hbt, hany]
      · simp [Function.comp, hro b, hbt]
    · rw [if_neg hL0]
      rw [List.countP_eq_zero]
      intro b _hb
      by_cases hbt : keyR b = t
      · obtain ⟨a, ha, hpa⟩ := List.countP_pos_iff.mp (Nat.pos_of_ne_zero hL0)
        have hany : (L.any fun a2 => keyL a2 == t) = true :=
          List.any_eq_true.mpr ⟨a, ha, hpa⟩
        simp [Function.comp, hro b, hbt, hany]
      · simp [Function.comp, hro b, hbt]
  rw [hright]

theorem count_key_of_nodup {α : Type} (key : α → String) (l : List α)
    (h : (l.map key).Nodup) (t : String) :
    l.countP (fun a => key a == t) = if t ∈ l.map key then 1 else 0 := by
  have hc : l.countP (fun a => key a == t) = (l.map key).count t := by
    rw [List.count_eq_countP, List.countP_map]
    refine List.countP_congr (fun a _ha => ?_)
    simp [Function.comp]
  rw [hc]
  by_cases hm : t ∈ l.map key
  · rw [if_pos hm]
    have h1 := List.nodup_iff_count_le_one.mp h t
    have h2 := List.count_pos_iff.mpr hm
    omega
  · rw [if_neg hm]
    exact List.count_eq_zero_of_not_mem hm

theorem countQT_mergeOrthLoss (orthology : List OrthRow) (loss : List (Nat × LossRow))
    (t : String) :
    (mergeOrthLoss orthology loss).countP (fun r => r.query_transcript == t)
      = orthology.countP (fun a => a.query_transcript == t)
          * max 1 (loss.countP (fun b => b.2.query_transcript == t))
        + (if orthology.countP (fun a => a.query_transcript == t) = 0
           then loss.countP (fun b => b.2.query_transcript == t) else 0) :=
  countP_outerMerge _ _ _ _ _ _ _ _ _ (fun _ _ => rfl) (fun _ => rfl) (fun _ => rfl)

theorem countQT_mergeScores (table : List Row1) (scores : List ScoreRow) (t : String) :
    (mergeScores table scores).countP (fun r => r.query_transcript == t)
      = table.countP (fun a => a.query_transcript == t)
          * max 1 (scores.countP (fun b => b.query_transcript == t))
        + (if table.countP (fun a => a.query_transcript == t) = 0
           then scores.countP (fun b => b.query_transcript == t) else 0) :=
  countP_outerMerge _ _ _ _ _ _ _ _ _ (fun _ _ => rfl) (fun _ => rfl) (fun _ => rfl)

theorem countQT_frag (l : List OutRow) (t : String) :
    (fill_query_genes_for_fragmented_projections l).countP
        (fun r => r.query_transcript == t)
      = l.countP (fun r => r.query_transcript == t) :=
  countP_key_map _ _ _ _ t (fun r => (fragmentGeneStep_score r).2)

theorem countQT_toOut (l : List Row2) (t : String) :
    (l.map toOutRow).countP (fun r => r.query_transcript == t)
      = l.countP (fun r => r.query_transcript == t) :=
  countP_key_map _ _ _ _ t (fun _r => rfl)

theorem countQT_overrides (l : List Row2) (m : List (String × String)) (t : String) :
    (apply_query_gene_overrides l m).countP (fun r => r.query_transcript == t)
      = l.countP (fun r => r.query_transcript == t) :=
  countP_key_map _ _ _ _ t
    (fun r => by cases hf : m.find? (fun p => p.1 == r.query_transcript) <;> simp [hf])

theorem countQT_fill2 (l : List Row2) (mp : String → Option String) (t : String) :
    (fill_gene_columns2 l mp).countP (fun r => r.query_transcript == t)
      = l.countP (fun r => r.query_transcript == t) :=
  countP_key_map _ _ _ _ t (fun _r => rfl)

theorem countQT_fill1 (l : List Row1) (mp : String → Option String) (t : String) :
    (fill_gene_columns1 l mp).countP (fun r => r.query_transcript == t)
      = l.countP (fun r => r.query_transcript == t) :=
  countP_key_map _ _ _ _ t (fun _r => rfl)

theorem countQT_fillRTT (l : List Row2) (t : String) :
    (fillRTFromTranscript l).countP (fun r => r.query_transcript == t)
      = l.countP (fun r => r.query_transcript == t) :=
  countP_key_map _ _ _ _ t
    (fun r => by by_cases h : r.reference_transcript.isNone <;> simp [h])

theorem countQT_fillRTFromLoss (merged : List Row1) (loss : List (Nat × LossRow))
    (t : String) :
    (fillRTFromLoss merged loss).countP (fun r => r.query_transcript == t)
      = merged.countP (fun r => r.query_transcript == t) := by
  unfold fillRTFromLoss
  rw [List.enum_eq_enumFrom]
  exact countP_key_enumFrom_map _ _ _ _ 0 t
    (fun i r => by by_cases h : r.reference_transcript.isNone <;> simp [h])

theorem hapRow_find_of_mem {tb : List HapRow}
    (hnd : (tb.map (fun r => r.transcripts)).Nodup) {s : HapRow} (hs : s ∈ tb) :
    tb.find? (fun r => r.transcripts == s.transcripts) = some s := by
  induction tb with
  | nil => simp at hs
  | cons a l ih =>
    rw [List.map_cons, List.nodup_cons] at hnd
    rcases List.mem_cons.mp hs with hs1 | hs1
    · subst hs1
      exact List.find?_cons_of_pos _ (by simp)
    · have hne : a.transcripts ≠ s.transcripts := by
        intro heq
        exact hnd.1 (heq ▸ List.mem_map_of_mem (fun r => r.transcripts) hs1)
      rw [List.find?_cons_of_neg _ (by simp [hne])]
      exact ih hnd.2 hs1

theorem classOf_eq_some_of_mem {tb : List HapRow}
    (hnd : (tb.map (fun r => r.transcripts)).Nodup) {s : HapRow} (hs : s ∈ tb) :
    classOf tb s.transcripts = some s.cls := by
  unfold classOf
  rw [hapRow_find_of_mem hnd hs]
  rfl

theorem classOf_eq_none {tb : List HapRow} {key : String}
    (h : ∀ s ∈ tb, s.transcripts ≠ key) : classOf tb key = none := by
  unfold classOf
  rw [List.find?_eq_none.mpr (fun s hs => by simp [h s hs])]
  rfl

theorem classOf_isSome_elim {tb : List HapRow} {key : String}
    (h : (classOf tb key).isSome) :
    ∃ s, s ∈ tb ∧ s.transcripts = key ∧ classOf tb key = some s.cls := by
  unfold classOf at h ⊢
  cases hf : tb.find? (fun r => r.transcripts == key) with
  | none => rw [hf] at h; simp at h
  | some s =>
    refine ⟨s, List.mem_of_find?_eq_some hf, ?_, rfl⟩
    have := List.find?_some hf
    simpa using this

theorem classOf_getD_vals {tb : List HapRow} {rule : List String}
    (hvals : ∀ r ∈ tb, r.cls ∈ rule ∨ r.cls = "NF") (key : String) :
    (classOf tb key).getD "NF" ∈ rule ∨ (classOf tb key).getD "NF" = "NF" := by
  cases hc : classOf tb key with
  | none => right; rfl
  | some c =>
    have hsome : (classOf tb key).isSome := by rw [hc]; rfl
    obtain ⟨s, hs, _hk, hcs⟩ := classOf_isSome_elim hsome
    rw [hc] at hcs
    have hcc : c = s.cls := Option.some.inj hcs
    simp only [Option.getD_some]
    rw [hcc]
    exact hvals s hs

theorem pyMin_mem (rank : String → Nat) (acc : String) (xs : List String) :
    pyMin rank acc xs = acc ∨ pyMin rank acc xs ∈ xs := by
  induction xs generalizing acc with
  | nil => left; rfl
  | cons x xs ih =>
    rw [pyMin]
    by_cases h : rank x < rank acc
    · rw [if_pos h]
      rcases ih x with h1 | h1
      · right; rw [h1]; exact List.mem_cons_self x xs
      · right; exact List.mem_cons_of_mem x h1
    · rw [if_neg h]
      rcases ih acc with h1 | h1
      · left; exact h1
      · right; exact List.mem_cons_of_mem x h1

theorem pyMin_le_all (rank : String → Nat) (acc : String) (xs : List String) :
    rank (pyMin rank acc xs) ≤ rank acc
      ∧ ∀ x ∈ xs, rank (pyMin rank acc xs) ≤ rank x := by
  induction xs generalizing acc with
  | nil => exact ⟨Nat.le_refl _, fun x hx => by simp at hx⟩
  | cons x xs ih =>
    rw [pyMin]
    by_cases h : rank x < rank acc
    · rw [if_pos h]
      obtain ⟨ha, hall⟩ := ih x
      refine ⟨by omega, fun y hy => ?_⟩
      rcases List.mem_cons.mp hy with hy1 | hy1
      · rw [hy1]; exact ha
      · exact hall y hy1
    · rw [if_neg h]
      obtain ⟨ha, hall⟩ := ih acc
      refine ⟨ha, fun y hy => ?_⟩
      rcases List.mem_cons.mp hy with hy1 | hy1
      · rw [hy1]; omega
      · exact hall y hy1

theorem pyMin_const (rank : String → Nat) (acc : String) (xs : List String)
    (hacc : acc = "NF") (hxs : ∀ x ∈ xs, x = "NF") : pyMin rank acc xs = "NF" := by
  rcases pyMin_mem rank acc xs with h | h
  · rw [h, hacc]
  · exact hxs _ h

theorem foldl_dict_insert (l : List String) :
    ∀ (n : Nat) (m : List (String × Nat)),
    l.Nodup → (∀ c ∈ l, c ∉ m.map Prod.fst) →
    (l.enumFrom n).foldl (fun m2 p => dict_insert m2 p.2 p.1) m
      = m ++ (l.enumFrom n).map (fun p => (p.2, p.1)) := by
  induction l with
  | nil => intro n m _ _; simp
  | cons a l ih =>
    intro n m hnd hdisj
    rw [List.enumFrom_cons, List.foldl_cons, List.map_cons]
    have hins : dict_insert m a n = m ++ [(a, n)] := by
      unfold dict_insert
      rw [if_neg ?_]
      intro hany
      rw [List.any_eq_true] at hany
      obtain ⟨p, hp, hpa⟩ := hany
      rw [beq_iff_eq] at hpa
      exact hdisj a (List.mem_cons_self a l) (hpa ▸ List.mem_map_of_mem Prod.fst hp)
    rw [hins]
    rw [List.nodup_cons] at hnd
    rw [ih (n + 1) (m ++ [(a, n)]) hnd.2 ?_]
    · rw [List.append_assoc]
      rfl
    · intro c hc
      rw [List.map_append, List.mem_append]
      rintro (hc1 | hc1)
      · exact hdisj c (List.mem_cons_of_mem a hc) hc1
      · simp at hc1
        exact hnd.1 (hc1 ▸ hc)

theorem enum_swap_keys (l : List String) :
    ∀ (n : Nat), ((l.enumFrom n).map (fun p => (p.2, p.1))).map Prod.fst = l := by
  induction l with
  | nil => intro n; rfl
  | cons a l ih =>
    intro n
    rw [List.enumFrom_cons, List.map_cons, List.map_cons]
    rw [ih (n + 1)]

theorem find?_enum_swap (l : List String) :
    ∀ (n : Nat) (c : String), c ∈ l →
    ∃ i, ((l.enumFrom n).map (fun p => (p.2, p.1))).find? (fun p => p.1 == c)
        = some (c, i) ∧ i < n + l.length := by
  induction l with
  | nil => intro n c hc; simp at hc
  | cons a l ih =>
    intro n c hc
    rw [List.enumFrom_cons, List.map_cons]
    by_cases hac : a = c
    · subst hac
      refine ⟨n, ?_, by simp⟩
      exact List.find?_cons_of_pos _ (by simp)
    · rcases List.mem_cons.mp hc with hc1 | hc1
      · exact absurd hc1.symm hac
      · obtain ⟨i, hi, hib⟩ := ih (n + 1) c hc1
        refine ⟨i, ?_, by simp; omega⟩
        rw [List.find?_cons_of_neg _ (by simp [hac])]
        exact hi

theorem find?_key_isSome_of_mem (m : List (String × Nat)) (c : String)
    (h : c ∈ m.map Prod.fst) : (m.find? (fun p => p.1 == c)).isSome := by
  induction m with
  | nil => simp at h
  | cons p m ih =>
    by_cases hp : p.1 = c
    · rw [List.find?_cons_of_pos _ (by simp [hp])]
      rfl
    · rw [List.find?_cons_of_neg _ (by simp [hp])]
      rw [List.map_cons, List.mem_cons] at h
      rcases h with h1 | h1
      · exact absurd h1.symm hp
      · exact ih h1

theorem rules_rank_spec (rule : List String) (hrule : rule.Nodup) :
    rank_of (get_haplotype_rules rule) "NF" = rule.length
    ∧ ∀ c ∈ rule, c ≠ "NF" → rank_of (get_haplotype_rules rule) c < rule.length := by
  have hbase : (rule.enum).foldl (fun m p => dict_insert m p.2 p.1) []
      = (rule.enumFrom 0).map (fun p => (p.2, p.1)) := by
    rw [List.enum_eq_enumFrom]
    rw [foldl_dict_insert rule 0 [] hrule (fun c _hc => by simp)]
    rfl
  have hkeys : ((rule.enumFrom 0).map (fun p => (p.2, p.1))).map Prod.fst = rule :=
    enum_swap_keys rule 0
  have hlen : ((rule.enumFrom 0).map (fun p => (p.2, p.1))).length = rule.length := by
    rw [List.length_map, List.enumFrom_length]
  have hg : get_haplotype_rules rule
      = dict_insert ((rule.enumFrom 0).map (fun p => (p.2, p.1))) "NF"
          ((rule.enumFrom 0).map (fun p => (p.2, p.1))).length := by
    unfold get_haplotype_rules
    rw [hbase]
  constructor
  · rw [hg, hlen]
    unfold dict_insert
    by_cases hnf : "NF" ∈ rule
    · rw [if_pos ?_]
      · unfold rank_of
        rw [find?_update_self _ "NF" rule.length
          (find?_key_isSome_of_mem _ "NF" (by rw [hkeys]; exact hnf))]
        rfl
      · rw [List.any_eq_true]
        have hm : "NF" ∈ ((rule.enumFrom 0).map (fun p => (p.2, p.1))).map Prod.fst := by
          rw [hkeys]; exact hnf
        obtain ⟨q, hq, hq2⟩ := List.mem_map.mp hm
        exact ⟨q, hq, by simp [hq2]⟩
    · rw [if_neg ?_]
      · unfold rank_of
        rw [List.find?_append]
        rw [find?_key_none_iff _ "NF" |>.mpr (by rw [hkeys]; exact hnf)]
        rw [Option.none_or]
        rw [List.find?_cons_of_pos _ (by simp)]
        rfl
      · intro hany
        rw [List.any_eq_true] at hany
        obtain ⟨p, hp, hpnf⟩ := hany
        rw [beq_iff_eq] at hpnf
        exact hnf (by rw [← hkeys]; exact hpnf ▸ List.mem_map_of_mem Prod.fst hp)
  · intro c hc hcnf
    obtain ⟨i, hi, hib⟩ := find?_enum_swap rule 0 c hc
    rw [hg]
    unfold dict_insert
    by_cases hany : (((rule.enumFrom 0).map (fun p => (p.2, p.1))).any
        (fun p => p.1 == "NF")) = true
    · rw [if_pos hany]
      unfold rank_of
      rw [find?_update_ne _ "NF" c _ (fun h => hcnf h.symm)]
      rw [hi]
      simpa using hib
    · rw [if_neg hany]
      unfold rank_of
      rw [List.find?_append, hi]
      show i < rule.length
      omega

theorem nwayConsensus_spec (rank : String → Nat) (rule : List String)
    (hlt : ∀ c ∈ rule, c ≠ "NF" → rank c < rank "NF")
    (v : String) (vs : List String)
    (hv : ∀ x ∈ v :: vs, x ∈ rule ∨ x = "NF") :
    (nwayConsensus rank (v :: vs) ∈ rule ∨ nwayConsensus rank (v :: vs) = "NF")
    ∧ (nwayConsensus rank (v :: vs) = "NF" ↔ ∀ x ∈ v :: vs, x = "NF") := by
  have hmem : nwayConsensus rank (v :: vs) ∈ v :: vs := by
    show pyMin rank v vs ∈ v :: vs
    rcases pyMin_mem rank v vs with h | h
    · rw [h]; exact List.mem_cons_self v vs
    · exact List.mem_cons_of_mem v h
  constructor
  · exact hv _ hmem
  · constructor
    · intro hnf x hx
      by_contra hxne
      have hxrule : x ∈ rule := by
        rcases hv x hx with h1 | h1
        · exact h1
        · exact absurd h1 hxne
      have hxlt : rank x < rank "NF" := hlt x hxrule hxne
      have hle : rank (nwayConsensus rank (v :: vs)) ≤ rank x := by
        show rank (pyMin rank v vs) ≤ rank x
        obtain ⟨h1, h2⟩ := pyMin_le_all rank v vs
        rcases List.mem_cons.mp hx with hx1 | hx1
        · rw [hx1]; exact h1
        · exact h2 x hx1
      rw [hnf] at hle
      omega
    · intro hall
      show pyMin rank v vs = "NF"
      exact pyMin_const rank v vs (hall v (List.mem_cons_self v vs))
        (fun x hx => hall x (List.mem_cons_of_mem v hx))

theorem pairedConsensus_spec (rank : String → Nat) (rule : List String)
    (hlt : ∀ c ∈ rule, c ≠ "NF" → rank c < rank "NF")
    (x y : String) (hx : x ∈ rule ∨ x = "NF") (hy : y ∈ rule ∨ y = "NF") :
    (pairedConsensus rank x y ∈ rule ∨ pairedConsensus rank x y = "NF")
    ∧ (pairedConsensus rank x y = "NF" ↔ x = "NF" ∧ y = "NF") := by
  have hmem : pairedConsensus rank x y = x ∨ pairedConsensus rank x y = y := by
    unfold pairedConsensus
    by_cases h1 : x = y
    · rw [if_pos h1]; left; rfl
    · rw [if_neg h1]
      by_cases h2 : rank x < rank y
      · rw [if_pos h2]; left; rfl
      · rw [if_neg h2]; right; rfl
  constructor
  · rcases hmem with h | h <;> rw [h]
    · exact hx
    · exact hy
  · constructor
    · intro hnf
      unfold pairedConsensus at hnf
      by_cases h1 : x = y
      · rw [if_pos h1] at hnf
        exact ⟨hnf, h1 ▸ hnf⟩
      · rw [if_neg h1] at hnf
        by_cases h2 : rank x < rank y
        · rw [if_pos h2] at hnf
          exfalso
          have hyne : y ≠ "NF" := fun hyeq => h1 (by rw [hnf, hyeq])
          have hyrule : y ∈ rule := by
            rcases hy with h3 | h3
            · exact h3
            · exact absurd h3 hyne
          have := hlt y hyrule hyne
          rw [hnf] at h2
          omega
        · rw [if_neg h2] at hnf
          exfalso
          have hxne : x ≠ "NF" := fun hxeq => h1 (by rw [hnf, hxeq])
          have hxrule : x ∈ rule := by
            rcases hx with h3 | h3
            · exact h3
            · exact absurd h3 hxne
          have := hlt x hxrule hxne
          rw [hnf] at h2
          omega
    · rintro ⟨hx1, hy1⟩
      unfold pairedConsensus
      rw [hx1, hy1]
      rw [if_pos rfl]

theorem nwayStep_classes (acc : List NRow) (tb : List HapRow) (ts : List (List HapRow))
    (htb : (tb.map (fun r => r.transcripts)).Nodup)
    (h1 : ∀ r ∈ acc, r.classes = ts.map (fun tb2 => classOf tb2 r.transcripts))
    (h3 : ∀ key, (∃ tb2 ∈ ts, (classOf tb2 key).isSome) → ∃ r ∈ acc, r.transcripts = key) :
    ∀ r2 ∈ nwayStep ts.length acc tb,
      r2.classes = (ts ++ [tb]).map (fun tb2 => classOf tb2 r2.transcripts) := by
  intro r2 hr2
  unfold nwayStep at hr2
  rw [mem_outerMerge] at hr2
  rcases hr2 with ⟨a, ha, b, hb, hkey, hcc⟩ | ⟨a, ha, hnom, hcc⟩ | ⟨b, hb, hnom, hcc⟩
  · subst hcc
    show a.classes ++ [some b.cls]
        = (ts ++ [tb]).map (fun tb2 => classOf tb2 a.transcripts)
    rw [List.map_append, List.map_cons, List.map_nil, h1 a ha]
    congr 1
    rw [← hkey, classOf_eq_some_of_mem htb hb]
  · subst hcc
    show a.classes ++ [none]
        = (ts ++ [tb]).map (fun tb2 => classOf tb2 a.transcripts)
    rw [List.map_append, List.map_cons, List.map_nil, h1 a ha]
    congr 1
    rw [classOf_eq_none hnom]
  · subst hcc
    show List.replicate ts.length none ++ [some b.cls]
        = (ts ++ [tb]).map (fun tb2 => classOf tb2 b.transcripts)
    rw [List.map_append, List.map_cons, List.map_nil]
    congr 1
    · symm
      apply List.eq_replicate.mpr
      refine ⟨by rw [List.length_map], ?_⟩
      intro o ho
      obtain ⟨tb2, htb2, rfl⟩ := List.mem_map.mp ho
      by_contra hne
      have hsome : (classOf tb2 b.transcripts).isSome := Option.ne_none_iff_isSome.mp hne
      obtain ⟨r, hr, hrk⟩ := h3 b.transcripts ⟨tb2, htb2, hsome⟩
      exact hnom r hr hrk
    · rw [classOf_eq_some_of_mem htb hb]

theorem nwayStep_keys (acc : List NRow) (tb : List HapRow) (ts : List (List HapRow))
    (h3 : ∀ key, (∃ tb2 ∈ ts, (classOf tb2 key).isSome) → ∃ r ∈ acc, r.transcripts = key) :
    ∀ key, (∃ tb2 ∈ ts ++ [tb], (classOf tb2 key).isSome) →
      ∃ r2 ∈ nwayStep ts.length acc tb, r2.transcripts = key := by
  have hacckey : ∀ a ∈ acc,
      ∃ r2 ∈ nwayStep ts.length acc tb, r2.transcripts = a.transcripts := by
    intro a ha
    by_cases hm : ∃ b ∈ tb, b.transcripts = a.transcripts
    · obtain ⟨b, hb, hbk⟩ := hm
      refine ⟨{ transcripts := a.transcripts, projs := a.projs ++ [b.projection],
                classes := a.classes ++ [some b.cls] }, ?_, rfl⟩
      unfold nwayStep
      rw [mem_outerMerge]
      exact Or.inl ⟨a, ha, b, hb, hbk, rfl⟩
    · refine ⟨{ transcripts := a.transcripts, projs := a.projs ++ [none],
                classes := a.classes ++ [none] }, ?_, rfl⟩
      unfold nwayStep
      rw [mem_outerMerge]
      exact Or.inr (Or.inl ⟨a, ha, fun b hb hbk => hm ⟨b, hb, hbk⟩, rfl⟩)
  rintro key ⟨tb2, htb2, hsome⟩
  rcases List.mem_append.mp htb2 with hts | htb1
  · obtain ⟨a, ha, hak⟩ := h3 key ⟨tb2, hts, hsome⟩
    obtain ⟨r2, hr2, hr2k⟩ := hacckey a ha
    exact ⟨r2, hr2, hr2k.trans hak⟩
  · have htbeq : tb2 = tb := by simpa using htb1
    subst htbeq
    obtain ⟨s, hs, hsk, _⟩ := classOf_isSome_elim hsome
    by_cases hacc : ∃ a ∈ acc, a.transcripts = key
    · obtain ⟨a, ha, hak⟩ := hacc
      obtain ⟨r2, hr2, hr2k⟩ := hacckey a ha
      exact ⟨r2, hr2, hr2k.trans hak⟩
    · refine ⟨{ transcripts := s.transcripts,
                projs := List.replicate ts.length none ++ [s.projection],
                classes := List.replicate ts.length none ++ [some s.cls] }, ?_, hsk⟩
      unfold nwayStep
      rw [mem_outerMerge]
      refine Or.inr (Or.inr ⟨s, hs, ?_, rfl⟩)
      intro a ha hak
      exact hacc ⟨a, ha, hak.trans hsk⟩

theorem nwayMergeAll_spec (rest : List (List HapRow)) :
    ∀ (acc : List NRow) (ts : List (List HapRow)),
    (∀ tb ∈ rest, (tb.map (fun r => r.transcripts)).Nodup) →
    (∀ r ∈ acc, r.classes = ts.map (fun tb2 => classOf tb2 r.transcripts)) →
    (∀ key, (∃ tb2 ∈ ts, (classOf tb2 key).isSome) → ∃ r ∈ acc, r.transcripts = key) →
    ∀ r ∈ nwayMergeAll acc ts.length rest,
      r.classes = (ts ++ rest).map (fun tb2 => classOf tb2 r.transcripts) := by
  induction rest with
  | nil =>
    intro acc ts _ h1 _ r hr
    rw [List.append_nil]
    exact h1 r hr
  | cons tb rest ih =>
    intro acc ts hnd h1 h3 r hr
    have hlen : (ts ++ [tb]).length = ts.length + 1 := by simp
    have h1s := nwayStep_classes acc tb ts (hnd tb (List.mem_cons_self tb rest)) h1 h3
    have h3s := nwayStep_keys acc tb ts h3
    have hres := ih (nwayStep ts.length acc tb) (ts ++ [tb])
      (fun tb2 htb2 => hnd tb2 (List.mem_cons_of_mem tb htb2)) h1s h3s r
      (by rw [hlen]; exact hr)
    rw [List.append_assoc] at hres
    simpa using hres

theorem nwayInit_classes (t0 : List HapRow)
    (hnd : (t0.map (fun r => r.transcripts)).Nodup) :
    ∀ r ∈ nwayInit t0, r.classes = [t0].map (fun tb2 => classOf tb2 r.transcripts) := by
  intro r hr
  obtain ⟨s, hs, rfl⟩ := List.mem_map.mp hr
  show [some s.cls] = [classOf t0 s.transcripts]
  rw [classOf_eq_some_of_mem hnd hs]

theorem nwayInit_keys (t0 : List HapRow) :
    ∀ key, (∃ tb2 ∈ [t0], (classOf tb2 key).isSome) →
      ∃ r ∈ nwayInit t0, r.transcripts = key := by
  rintro key ⟨tb2, htb2, hsome⟩
  have htb0 : tb2 = t0 := by simpa using htb2
  subst htb0
  obtain ⟨s, hs, hsk, _⟩ := classOf_isSome_elim hsome
  exact ⟨{ transcripts := s.transcripts, projs := [s.projection],
           classes := [some s.cls] }, List.mem_map_of_mem _ hs, hsk⟩

theorem pairMerge_cells {t0 t1 : List HapRow}
    (hnd0 : (t0.map (fun r => r.transcripts)).Nodup)
    (hnd1 : (t1.map (fun r => r.transcripts)).Nodup) :
    ∀ r ∈ pairMerge t0 t1,
      r.cls_x.getD "NF" = (classOf t0 r.transcripts).getD "NF"
      ∧ r.cls_y.getD "NF" = (classOf t1 r.transcripts).getD "NF" := by
  intro r hr
  unfold pairMerge at hr
  rw [mem_outerMerge] at hr
  rcases hr with ⟨a, ha, b, hb, hkey, hcc⟩ | ⟨a, ha, hnom, hcc⟩ | ⟨b, hb, hnom, hcc⟩
  · subst hcc
    constructor
    · show (some a.cls).getD "NF" = (classOf t0 a.transcripts).getD "NF"
      rw [classOf_eq_some_of_mem hnd0 ha]
    · show (some b.cls).getD "NF" = (classOf t1 a.transcripts).getD "NF"
      rw [← hkey, classOf_eq_some_of_mem hnd1 hb]
  · subst hcc
    constructor
    · show (some a.cls).getD "NF" = (classOf t0 a.transcripts).getD "NF"
      rw [classOf_eq_some_of_mem hnd0 ha]
    · show (none : Option String).getD "NF" = (classOf t1 a.transcripts).getD "NF"
      rw [classOf_eq_none hnom]
  · subst hcc
    constructor
    · show (none : Option String).getD "NF" = (classOf t0 b.transcripts).getD "NF"
      rw [classOf_eq_none hnom]
    · show (some b.cls).getD "NF" = (classOf t1 b.transcripts).getD "NF"
      rw [classOf_eq_some_of_mem hnd1 hb]

/-! ## Claim theorems -/

/-- C3: when an identifier occurs k > 1 times in the coordinate file the
Fragment Resolver rewrites its k occurrences, in file order, to the
pairwise-distinct identifiers id#FG1 .. id#FGk, joins fragment count k back
onto every table row carrying that identifier, and gives fragment count 0 to
every table row whose identifier occurs at most once. -/
theorem c3_fragment_resolver (table : List FragTableRow) (bedIds : List String)
    (v : String) (r : FragTableRow) (hv : 1 < bedIds.count v) (hr : r ∈ table) :
    idsAt bedIds (unfragment_projections table bedIds).2 v
      = (List.range (bedIds.count v)).map (fun i => v ++ "#FG" ++ decimalStr (i + 1))
    ∧ (idsAt bedIds (unfragment_projections table bedIds).2 v).Nodup
    ∧ (r.projection = v →
        ({ r with fragments := some (bedIds.count v) } : FragTableRow)
          ∈ (unfragment_projections table bedIds).1)
    ∧ (bedIds.count r.projection ≤ 1 →
        ({ r with fragments := some 0 } : FragTableRow)
          ∈ (unfragment_projections table bedIds).1) := by
  have hvmem : v ∈ bedIds := by
    by_contra hcon
    rw [List.count_eq_zero_of_not_mem hcon] at hv
    omega
  have hvf : v ∈ (bedIds.dedup).filter (fun u => decide (1 < bedIds.count u)) := by
    rw [List.mem_filter]
    exact ⟨List.mem_dedup.mpr hvmem, by simpa using hv⟩
  have hinit : (initFragmentCounts bedIds).find? (fun p => p.1 == v) = some (v, 0) :=
    mem_map_key_find _ v hvf
  have hne : (initFragmentCounts bedIds).isEmpty = false := by
    unfold initFragmentCounts
    cases hl : (bedIds.dedup).filter (fun u => decide (1 < bedIds.count u)) with
    | nil => rw [hl] at hvf; simp at hvf
    | cons a l => rfl
  have hunf : unfragment_projections table bedIds
      = (table.map (fragUpdateRow (rewriteBedIds bedIds (initFragmentCounts bedIds)).2),
         (rewriteBedIds bedIds (initFragmentCounts bedIds)).1) := by
    unfold unfragment_projections
    rw [if_neg (by rw [hne]; exact Bool.false_ne_true)]
  obtain ⟨hspec1, hspec2⟩ :=
    rewriteBedIds_spec bedIds (initFragmentCounts bedIds) v 0 hinit
  have hmain : idsAt bedIds (unfragment_projections table bedIds).2 v
      = (List.range (bedIds.count v)).map
          (fun i => v ++ "#FG" ++ decimalStr (i + 1)) := by
    rw [hunf]
    rw [hspec1]
    refine List.map_congr_left (fun i _hi => ?_)
    have harith : 0 + i + 1 = i + 1 := by omega
    rw [harith]
  refine ⟨hmain, ?_, ?_, ?_⟩
  · rw [hmain]
    refine List.Nodup.map_on ?_ (List.nodup_range _)
    intro x hx y hy hxy
    have hdata := congrArg String.data hxy
    simp only [String.data_append] at hdata
    have h2 := List.append_cancel_left hdata
    have h3 : decChars (x + 1) = decChars (y + 1) := h2
    have := decChars_inj (x + 1) (y + 1) h3
    omega
  · intro hrv
    rw [hunf]
    have hfn : fragUpdateRow (rewriteBedIds bedIds (initFragmentCounts bedIds)).2 r
        = { r with fragments := some (bedIds.count v) } := by
      unfold fragUpdateRow
      simp only [hrv, hspec2, Option.map_some', Option.getD_some, Nat.zero_add]
    rw [← hfn]
    exact List.mem_map_of_mem _ hr
  · intro hrc
    have hkeys := rewriteBedIds_keys bedIds (initFragmentCounts bedIds)
    have hnone : (rewriteBedIds bedIds (initFragmentCounts bedIds)).2.find?
        (fun p => p.1 == r.projection) = none := by
      rw [find?_key_none_iff, hkeys]
      unfold initFragmentCounts
      rw [List.map_map]
      intro hmem
      rw [List.mem_map] at hmem
      obtain ⟨u, hu, huq⟩ := hmem
      rw [List.mem_filter] at hu
      have hcount : 1 < bedIds.count u := by simpa using hu.2
      have : u = r.projection := huq
      rw [this] at hcount
      omega
    rw [hunf]
    have hfn : fragUpdateRow (rewriteBedIds bedIds (initFragmentCounts bedIds)).2 r
        = { r with fragments := some 0 } := by
      unfold fragUpdateRow
      simp only [hnone]
      rfl
    rw [← hfn]
    exact List.mem_map_of_mem _ hr

/-- C3 witness: on the specification's example (G1 three times, G2 once) the
resolver produces G1#FG1, G1#FG2, G1#FG3 pairwise distinct, fragment count 3
for G1 and 0 for G2. -/
theorem c3_witness :
    idsAt exBedIds (unfragment_projections exFragTable exBedIds).2 "G1"
      = ["G1#FG1", "G1#FG2", "G1#FG3"]
    ∧ (idsAt exBedIds (unfragment_projections exFragTable exBedIds).2 "G1").Nodup
    ∧ ({ projection := "G1", fragments := some 3 } : FragTableRow)
        ∈ (unfragment_projections exFragTable exBedIds).1
    ∧ ({ projection := "G2", fragments := some 0 } : FragTableRow)
        ∈ (unfragment_projections exFragTable exBedIds).1 := by
  have h1 := c3_fragment_resolver exFragTable exBedIds "G1"
    { projection := "G1", fragments := none } (by decide) (by decide)
  have h2 := c3_fragment_resolver exFragTable exBedIds "G1"
    { projection := "G2", fragments := none } (by decide) (by decide)
  refine ⟨h1.1.trans (by decide), h1.2.1, h1.2.2.1 rfl, h2.2.2.2 (by decide)⟩

/-- C6 counterexample: a loss-only projection row flows through the whole
reconciliation with a null query_gene; no placeholder token is ever
assigned. -/
theorem c6_counterexample :
    (reconcile []
        (load_and_filter_loss_summary
          [{ level := "PROJECTION", query_transcript := "t#1", loss_status := "I" }]
          "PROJECTION")
        [] []).map (fun r => r.query_gene) = [none] := by
  decide

/-- C6 (amended): the final fragment rewrite is the only step after the
join, fill and override stages, and it leaves every row whose
query_transcript has no dollar sign untouched; in particular a row whose
query_gene is still null stays null in the returned table, and no
placeholder token exists. -/
theorem c6_amended (orthology : List OrthRow) (loss : List (Nat × LossRow))
    (scores : List ScoreRow) (query_genes : List (String × String)) (r : OutRow)
    (hmem : r ∈ (apply_query_gene_overrides
        (merge_and_fill_orthology_data orthology loss scores) query_genes).map toOutRow)
    (hnd : containsChar r.query_transcript '$' = false) :
    r ∈ reconcile orthology loss scores query_genes := by
  unfold reconcile fill_query_genes_for_fragmented_projections
  have hstep : fragmentGeneStep r = r := by
    unfold fragmentGeneStep
    rw [if_neg (by rw [hnd]; exact Bool.false_ne_true)]
  rw [← hstep]
  exact List.mem_map_of_mem fragmentGeneStep hmem

/-- C6 amended witness: the loss-only row of the counterexample passes the
fragment rewrite unchanged and reaches the output with query_gene null. -/
theorem c6_amended_witness :
    ({ reference_gene := none, reference_transcript := some "t#1",
       query_gene := none, query_transcript := "t#1", orthology_class := none,
       loss_status := some "I", orthology_score := none } : OutRow)
      ∈ reconcile []
          (load_and_filter_loss_summary
            [{ level := "PROJECTION", query_transcript := "t#1", loss_status := "I" }]
            "PROJECTION")
          [] [] :=
  c6_amended []
    (load_and_filter_loss_summary
      [{ level := "PROJECTION", query_transcript := "t#1", loss_status := "I" }]
      "PROJECTION")
    [] []
    { reference_gene := none, reference_transcript := some "t#1",
      query_gene := none, query_transcript := "t#1", orthology_class := none,
      loss_status := some "I", orthology_score := none }
    (by decide) (by decide)

/-- C8 counterexample: an orthology-only row, never matched by any scores
row, keeps a null orthology_score in the reconciled table; it is not
defaulted to 0. -/
theorem c8_counterexample :
    (reconcile
        [{ reference_gene := some "rg", reference_transcript := some "rt",
           query_gene := some "qg", query_transcript := "t#1",
           orthology_class := some "o2o" }]
        [] [] []).map (fun r => r.orthology_score) = [none]
    ∧ (none : Option Rat) ≠ some 0 := by
  refine ⟨by decide, by decide⟩

/-- C8 (amended): a reconciled row whose query_transcript matches no
processed scores row ends with a null (missing) orthology_score — not 0 and
not an error; the reconciler itself never coerces or defaults scores. -/
theorem c8_amended (orthology : List OrthRow) (loss : List (Nat × LossRow))
    (scores : List ScoreRow) (query_genes : List (String × String)) (r : OutRow)
    (hmem : r ∈ reconcile orthology loss scores query_genes)
    (hnos : ∀ sc ∈ scores, sc.query_transcript ≠ r.query_transcript) :
    r.orthology_score = none := by
  unfold reconcile fill_query_genes_for_fragmented_projections at hmem
  rw [List.mem_map] at hmem
  obtain ⟨r1, hr1, hr1e⟩ := hmem
  rw [List.mem_map] at hr1
  obtain ⟨r2, hr2, hr2e⟩ := hr1
  obtain ⟨r3, hr3, hsc3, hqt3⟩ := apply_overrides_mem hr2
  unfold merge_and_fill_orthology_data at hr3
  obtain ⟨r4, hr4, hsc4, hqt4⟩ := fill_gene_columns2_mem hr3
  obtain ⟨r5, hr5, hsc5, hqt5⟩ := fillRTFromTranscript_mem hr4
  have hqtr : r.query_transcript = r5.query_transcript := by
    obtain ⟨_hs, hq⟩ := fragmentGeneStep_score r1
    rw [← hr1e, hq, ← hr2e]
    show r2.query_transcript = r5.query_transcript
    rw [hqt3, hqt4, hqt5]
  have hscr : r.orthology_score = r5.orthology_score := by
    obtain ⟨hs, _hq⟩ := fragmentGeneStep_score r1
    rw [← hr1e, hs, ← hr2e]
    show r2.orthology_score = r5.orthology_score
    rw [hsc3, hsc4, hsc5]
  rw [hscr]
  unfold mergeScores at hr5
  rw [mem_outerMerge] at hr5
  rcases hr5 with ⟨a, _ha, b, hb, hkey, hcc⟩ | ⟨a, _ha, _hnone, hcc⟩ | ⟨b, hb, _hnone, hcc⟩
  · exfalso
    refine hnos b hb ?_
    rw [hqtr, hcc]
    show b.query_transcript = _
    rw [hkey]
  · rw [hcc]
  · exfalso
    refine hnos b hb ?_
    rw [hqtr, hcc]

/-- C8 amended witness: the concrete unmatched orthology row of the
counterexample indeed carries a null score. -/
theorem c8_amended_witness :
    ({ reference_gene := some "rg", reference_transcript := some "rt",
       query_gene := some "qg", query_transcript := "t#1",
       orthology_class := some "o2o", loss_status := none,
       orthology_score := none } : OutRow).orthology_score = none :=
  c8_amended
    [{ reference_gene := some "rg", reference_transcript := some "rt",
       query_gene := some "qg", query_transcript := "t#1",
       orthology_class := some "o2o" }]
    [] [] []
    { reference_gene := some "rg", reference_transcript := some "rt",
      query_gene := some "qg", query_transcript := "t#1",
      orthology_class := some "o2o", loss_status := none,
      orthology_score := none }
    (by decide) (by decide)

/-- C1 counterexample: a query_transcript that occurs only in the gene
override input never reaches the reconciled table — overrides rewrite
existing rows but add none — so it appears zero times, not exactly once. -/
theorem c1_counterexample :
    (reconcile [] [] [] [("T", "G")]).countP (fun r => r.query_transcript == "T") = 0 := by
  decide

/-- C1 (amended): when the orthology, filtered-loss and processed-scores
tables each have pairwise-distinct query_transcript keys, every
query_transcript occurring in one of those three tables appears exactly
once in the reconciled table and every other identifier appears zero
times; keys occurring only in the gene-override map are not added. -/
theorem c1_amended (orthology : List OrthRow) (loss : List (Nat × LossRow))
    (scores : List ScoreRow) (query_genes : List (String × String))
    (ho : (orthology.map (fun a => a.query_transcript)).Nodup)
    (hl : (loss.map (fun p => p.2.query_transcript)).Nodup)
    (hs : (scores.map (fun b => b.query_transcript)).Nodup)
    (t : String) :
    (reconcile orthology loss scores query_genes).countP
        (fun r => r.query_transcript == t)
      = if t ∈ orthology.map (fun a => a.query_transcript)
            ∨ t ∈ loss.map (fun p => p.2.query_transcript)
            ∨ t ∈ scores.map (fun b => b.query_transcript)
        then 1 else 0 := by
  have hCO := count_key_of_nodup (fun a : OrthRow => a.query_transcript) orthology ho t
  have hCL := count_key_of_nodup (fun p : Nat × LossRow => p.2.query_transcript) loss hl t
  have hCS := count_key_of_nodup (fun b : ScoreRow => b.query_transcript) scores hs t
  rw [show reconcile orthology loss scores query_genes
      = fill_query_genes_for_fragmented_projections
          ((apply_query_gene_overrides (merge_and_fill_orthology_data orthology loss scores)
            query_genes).map toOutRow) from rfl]
  rw [countQT_frag, countQT_toOut, countQT_overrides]
  rw [show merge_and_fill_orthology_data orthology loss scores
      = fill_gene_columns2 (fillRTFromTranscript (mergeScores
          (fill_gene_columns1 (fillRTFromLoss (mergeOrthLoss orthology loss) loss)
            (create_gene_mapping (fillRTFromLoss (mergeOrthLoss orthology loss) loss)
              (fun r => r.reference_transcript) (fun r => r.reference_gene))) scores))
        (create_gene_mapping (fillRTFromTranscript (mergeScores
          (fill_gene_columns1 (fillRTFromLoss (mergeOrthLoss orthology loss) loss)
            (create_gene_mapping (fillRTFromLoss (mergeOrthLoss orthology loss) loss)
              (fun r => r.reference_transcript) (fun r => r.reference_gene))) scores))
          (fun r => r.reference_transcript) (fun r => r.reference_gene)) from rfl]
  rw [countQT_fill2, countQT_fillRTT, countQT_mergeScores, countQT_fill1,
    countQT_fillRTFromLoss, countQT_mergeOrthLoss, hCO, hCL, hCS]
  by_cases mo : t ∈ orthology.map (fun a => a.query_transcript) <;>
    by_cases ml : t ∈ loss.map (fun p => p.2.query_transcript) <;>
      by_cases ms : t ∈ scores.map (fun b => b.query_transcript) <;>
        simp [mo, ml, ms]

/-- C1 amended witness: with one orthology key a#1, one loss key b#1 and one
scores key c#1, the key a#1 appears exactly once in the reconciled table. -/
theorem c1_amended_witness :
    (reconcile [exOrthRow] [(0, exLossRow)] [exScoreRow] []).countP
        (fun r => r.query_transcript == "a#1")
      = if "a#1" ∈ [exOrthRow].map (fun a => a.query_transcript)
            ∨ "a#1" ∈ [(0, exLossRow)].map (fun p => p.2.query_transcript)
            ∨ "a#1" ∈ [exScoreRow].map (fun b => b.query_transcript)
        then 1 else 0 :=
  c1_amended [exOrthRow] [(0, exLossRow)] [exScoreRow] []
    (by decide) (by decide) (by decide) "a#1"

/-- C9 counterexample: a PROJECTION-level loss row with the two-segment
identifier base#chain gets r_transcript equal to the whole identifier
base#chain, not to base as the claim predicts. -/
theorem c9_counterexample :
    ((load_and_filter_loss_summary
        [{ level := "PROJECTION", query_transcript := "base#chain", loss_status := "I" }]
        "PROJECTION").map (fun p => p.2.r_transcript) = ["base#chain"])
    ∧ ("base#chain" : String) ≠ "base" := by
  refine ⟨by decide, by decide⟩

/-- C9 (amended): the filtered loss summary keeps exactly the retained-level
rows of the input (each descending from a raw row with the same level, key
and status), and the derived secondary key r_transcript equals the first two
hash-separated segments of the transcript identifier joined by "#" (so an
identifier with at most one "#" is unchanged, and dot-separated suffixes are
never touched). -/
theorem c9_amended (rows : List RawLossRow) (p : Nat × LossRow)
    (h : p ∈ load_and_filter_loss_summary rows "PROJECTION") :
    p.2.level = "PROJECTION"
    ∧ p.2.r_transcript
        = joinWith "#" ((splitOnChar '#' p.2.query_transcript).take 2)
    ∧ ∃ raw, raw ∈ rows ∧ raw.level = p.2.level
        ∧ raw.query_transcript = p.2.query_transcript
        ∧ raw.loss_status = p.2.loss_status := by
  unfold load_and_filter_loss_summary at h
  rw [List.mem_map] at h
  obtain ⟨q, hq, rfl⟩ := h
  rw [List.mem_filter] at hq
  obtain ⟨hqm, hlvl⟩ := hq
  have hl : q.2.level = "PROJECTION" := by simpa using hlvl
  exact ⟨hl, rfl, ⟨q.2, snd_mem_of_mem_enum hqm, rfl, rfl, rfl⟩⟩

/-- C9 amended witness: the amended key derivation evaluated on a concrete
PROJECTION row with identifier base#chain. -/
theorem c9_amended_witness :
    (0, ({ level := "PROJECTION", query_transcript := "base#chain",
           loss_status := "I", r_transcript := "base#chain" } : LossRow)).2.level
        = "PROJECTION"
    ∧ (0, ({ level := "PROJECTION", query_transcript := "base#chain",
             loss_status := "I", r_transcript := "base#chain" } : LossRow)).2.r_transcript
        = joinWith "#"
            (((splitOnChar '#'
                (0, ({ level := "PROJECTION", query_transcript := "base#chain",
                       loss_status := "I",
                       r_transcript := "base#chain" } : LossRow)).2.query_transcript).take 2))
    ∧ ∃ raw, raw ∈ [({ level := "PROJECTION", query_transcript := "base#chain",
                       loss_status := "I" } : RawLossRow)]
        ∧ raw.level = "PROJECTION" ∧ raw.query_transcript = "base#chain"
        ∧ raw.loss_status = "I" :=
  c9_amended
    [{ level := "PROJECTION", query_transcript := "base#chain", loss_status := "I" }]
    (0, { level := "PROJECTION", query_transcript := "base#chain",
          loss_status := "I", r_transcript := "base#chain" })
    (by decide)

/-- C7 counterexample: on a row with query_gene g and query_transcript
tx$F1 the fragment post-processing produces query_gene g_tx$F1 (underscore
plus the whole query_transcript), not gF1 as appending just the
dollar-delimited fragment marker would give. -/
theorem c7_counterexample :
    (fill_query_genes_for_fragmented_projections [exFragRow]).map (fun r => r.query_gene)
      = [some "g_tx$F1"]
    ∧ some "g_tx$F1" ≠ some ("g" ++ "F1") := by
  refine ⟨by decide, by decide⟩

/-- C7 (amended): a row whose query_transcript contains a dollar sign gets
query_gene replaced by query_gene ++ "_" ++ query_transcript (a null
query_gene stays null), and a row without a dollar sign passes through the
fragment post-processing unchanged. -/
theorem c7_amended (table : List OutRow) (r : OutRow) (h : r ∈ table) :
    (containsChar r.query_transcript '$' = true →
      { r with query_gene := r.query_gene.map (fun g => g ++ "_" ++ r.query_transcript) }
        ∈ fill_query_genes_for_fragmented_projections table)
    ∧ (containsChar r.query_transcript '$' = false →
      r ∈ fill_query_genes_for_fragmented_projections table) := by
  have hm := List.mem_map_of_mem fragmentGeneStep h
  constructor
  · intro hc
    have hstep : fragmentGeneStep r
        = { r with query_gene := r.query_gene.map (fun g => g ++ "_" ++ r.query_transcript) } := by
      simp [fragmentGeneStep, hc]
    rw [fill_query_genes_for_fragmented_projections, ← hstep]
    exact hm
  · intro hc
    have hstep : fragmentGeneStep r = r := by
      simp [fragmentGeneStep, hc]
    rw [fill_query_genes_for_fragmented_projections, ← hstep]
    exact hm

/-- C7 amended witness: the rewrite evaluated on the concrete fragment row. -/
theorem c7_amended_witness :
    { exFragRow with query_gene :=
        exFragRow.query_gene.map (fun g => g ++ "_" ++ exFragRow.query_transcript) }
      ∈ fill_query_genes_for_fragmented_projections [exFragRow] :=
  (c7_amended [exFragRow] exFragRow (by decide)).1 (by decide)

/-- C10: when the rank function cannot assign the two classes the same rank
without them being equal (injectivity on the pair), the paired branch's
explicit case analysis elects the same class as the N-way branch's Python
min over the two-element class list. -/
theorem c10_paired_eq_min (rank : String → Nat) (x y : String)
    (hinj : rank x = rank y → x = y) :
    pairedConsensus rank x y = nwayConsensus rank [x, y] := by
  have hmin : nwayConsensus rank [x, y] = if rank y < rank x then y else x := by
    simp [nwayConsensus, pyMin]
  rw [hmin]
  unfold pairedConsensus
  by_cases hxy : x = y
  · subst hxy
    simp
  · by_cases hlt : rank x < rank y
    · rw [if_neg hxy, if_pos hlt, if_neg (by omega)]
    · by_cases hgt : rank y < rank x
      · rw [if_neg hxy, if_neg hlt, if_pos hgt]
      · exact absurd (hinj (by omega)) hxy

/-- C10 witness: the two branches agree on a concrete injective rank. -/
theorem c10_witness :
    pairedConsensus (fun c => if c = "I" then 0 else 1) "I" "L"
      = nwayConsensus (fun c => if c = "I" then 0 else 1) ["I", "L"] :=
  c10_paired_eq_min (fun c => if c = "I" then 0 else 1) "I" "L" (by decide)

/-- C5: the paralog step keeps a reference_transcript group in full exactly
when at most one of the group's rows scores strictly above the paralog
threshold, and removes the entire group (including its highest-scoring row)
otherwise; rows keep their original order. -/
theorem c5_paralog_group_rule (threshold : Rat) (table : List OutRow) (t : String) :
    (countAboveParalog table t threshold ≤ 1 →
      (paralog_filter_step threshold table).filter
          (fun s => s.reference_transcript == some t)
        = table.filter (fun s => s.reference_transcript == some t))
    ∧ (1 < countAboveParalog table t threshold →
      (paralog_filter_step threshold table).filter
          (fun s => s.reference_transcript == some t) = []) := by
  constructor
  · intro h
    unfold paralog_filter_step
    rw [List.filter_filter]
    apply List.filter_congr
    intro r _hr
    cases hrt : r.reference_transcript with
    | none => simp [hrt]
    | some u =>
      by_cases hu : u = t
      · subst hu
        simp [hrt, h]
      · simp [hrt, hu]
  · intro h
    unfold paralog_filter_step
    rw [List.filter_filter]
    rw [List.filter_eq_nil_iff]
    intro r _hr hcontra
    rw [Bool.and_eq_true] at hcontra
    obtain ⟨hg, hp⟩ := hcontra
    have hrt : r.reference_transcript = some t := by simpa using hg
    rw [hrt] at hp
    simp only [decide_eq_true_eq] at hp
    omega

/-- C5 witness: on the concrete table, the singly-scored group A is kept in
full and the doubly-high-scoring group B is removed entirely. -/
theorem c5_witness :
    ((paralog_filter_step (mkRat 1 2) exFilterTable).filter
        (fun s => s.reference_transcript == some "A")
      = exFilterTable.filter (fun s => s.reference_transcript == some "A"))
    ∧ ((paralog_filter_step (mkRat 1 2) exFilterTable).filter
        (fun s => s.reference_transcript == some "B") = []) :=
  ⟨(c5_paralog_group_rule (mkRat 1 2) exFilterTable "A").1 (by decide),
   (c5_paralog_group_rule (mkRat 1 2) exFilterTable "B").2 (by decide)⟩


theorem mem_of_scoreStep {p : Option Rat} {table : List OutRow} {r : OutRow}
    (h : r ∈ scoreStep p table) : r ∈ table := by
  cases p with
  | none => exact h
  | some t => exact List.mem_of_mem_filter h

theorem mem_of_classStep {p : Option String} {table : List OutRow} {r : OutRow}
    (h : r ∈ classStep p table) : r ∈ table := by
  cases p with
  | none => exact h
  | some s =>
    by_cases hs : s = ""
    · simpa [classStep, hs] using h
    · rw [classStep] at h
      rw [if_neg hs] at h
      exact List.mem_of_mem_filter h

theorem mem_of_statusStep {p : Option String} {table : List OutRow} {r : OutRow}
    (h : r ∈ statusStep p table) : r ∈ table := by
  cases p with
  | none => exact h
  | some s =>
    by_cases hs : s = ""
    · simpa [statusStep, hs] using h
    · rw [statusStep] at h
      rw [if_neg hs] at h
      exact List.mem_of_mem_filter h

theorem paralogStep_sublist (p : Option Rat) (table : List OutRow) :
    List.Sublist (paralogStep p table) table := by
  cases p with
  | none => exact List.Sublist.refl table
  | some t => exact List.filter_sublist table

theorem statusStep_sublist (p : Option String) (table : List OutRow) :
    List.Sublist (statusStep p table) table := by
  cases p with
  | none => exact List.Sublist.refl table
  | some s =>
    by_cases hs : s = ""
    · simp [statusStep, hs]
    · rw [statusStep, if_neg hs]
      exact List.filter_sublist table

theorem classStep_sublist (p : Option String) (table : List OutRow) :
    List.Sublist (classStep p table) table := by
  cases p with
  | none => exact List.Sublist.refl table
  | some s =>
    by_cases hs : s = ""
    · simp [classStep, hs]
    · rw [classStep, if_neg hs]
      exact List.filter_sublist table

theorem countAboveParalog_mono {l l2 : List OutRow} (t : String) (threshold : Rat)
    (h : List.Sublist l l2) :
    countAboveParalog l t threshold ≤ countAboveParalog l2 t threshold := by
  unfold countAboveParalog
  exact List.Sublist.countP_le _ (List.Sublist.filter _ h)

/-- Rows surviving the four tabular filters pass each of them again, so the
sequence is idempotent on any sublist of its own output. -/
theorem tabular_filters_idem (bs : Option Rat) (bc bl : Option String) (bp : Option Rat)
    (table l : List OutRow)
    (hsub : List.Sublist l (tabular_filters bs bc bl bp table)) :
    tabular_filters bs bc bl bp l = l := by
  have hsubT3 : List.Sublist l (statusStep bl (classStep bc (scoreStep bs table))) :=
    hsub.trans (paralogStep_sublist bp _)
  have hmemT4 : ∀ r ∈ l, r ∈ tabular_filters bs bc bl bp table :=
    fun r hr => hsub.subset hr
  have hmemT1 : ∀ r ∈ l, r ∈ scoreStep bs table := fun r hr =>
    mem_of_classStep (mem_of_statusStep (hsubT3.subset hr))
  have hscore : scoreStep bs l = l := by
    cases bs with
    | none => rfl
    | some t =>
      rw [scoreStep]
      exact List.filter_eq_self.mpr (fun r hr => (List.mem_filter.mp (hmemT1 r hr)).2)
  have hclass : classStep bc l = l := by
    cases bc with
    | none => rfl
    | some s =>
      by_cases hs : s = ""
      · simp [classStep, hs]
      · rw [classStep, if_neg hs]
        refine List.filter_eq_self.mpr (fun r hr => ?_)
        have h2 : r ∈ classStep (some s) (scoreStep bs table) :=
          mem_of_statusStep (hsubT3.subset hr)
        rw [classStep, if_neg hs] at h2
        exact (List.mem_filter.mp h2).2
  have hstatus : statusStep bl l = l := by
    cases bl with
    | none => rfl
    | some s =>
      by_cases hs : s = ""
      · simp [statusStep, hs]
      · rw [statusStep, if_neg hs]
        refine List.filter_eq_self.mpr (fun r hr => ?_)
        have h3 : r ∈ statusStep (some s) (classStep bc (scoreStep bs table)) :=
          hsubT3.subset hr
        rw [statusStep, if_neg hs] at h3
        exact (List.mem_filter.mp h3).2
  have hparalog : paralogStep bp l = l := by
    cases bp with
    | none => rfl
    | some t =>
      show paralog_filter_step t l = l
      unfold paralog_filter_step
      refine List.filter_eq_self.mpr (fun r hr => ?_)
      have h5 : r ∈ paralog_filter_step t
          (statusStep bl (classStep bc (scoreStep bs table))) := hmemT4 r hr
      unfold paralog_filter_step at h5
      have h6 := (List.mem_filter.mp h5).2
      cases hrt : r.reference_transcript with
      | none => simp [hrt] at h6
      | some u =>
        rw [hrt] at h6
        simp only [decide_eq_true_eq] at h6 ⊢
        calc countAboveParalog l u t
            ≤ countAboveParalog (statusStep bl (classStep bc (scoreStep bs table))) u t :=
              countAboveParalog_mono u t hsubT3
          _ ≤ 1 := h6
  rw [tabular_filters, hscore, hclass, hstatus, hparalog]

/-- C4: the helper-identifier set of the written filtered coordinate table
is exactly the intersection of the coordinate file's helper identifiers with
the query_transcript set surviving the tabular filters, and re-running the
whole pipeline with the same parameters on its own two outputs returns them
unchanged (the mutual narrowing is a fixed point). -/
theorem c4_filter_intersection_fixed_point (bs : Option Rat) (bc bl : Option String)
    (bp : Option Rat) (table : List OutRow) (bed : List BedRow) :
    (∀ x : String,
      x ∈ (filter_query_annot bs bc bl bp table bed).1.map bedHelper
        ↔ (x ∈ bed.map bedHelper
            ∧ x ∈ (tabular_filters bs bc bl bp table).map (fun r => r.query_transcript)))
    ∧ filter_query_annot bs bc bl bp
        ((filter_query_annot bs bc bl bp table bed).2)
        ((filter_query_annot bs bc bl bp table bed).1)
      = filter_query_annot bs bc bl bp table bed := by
  have hfq : filter_query_annot bs bc bl bp table bed
      = ((bed.filter (fun b => (tabular_filters bs bc bl bp table).any
            (fun r => r.query_transcript == bedHelper b))),
         ((tabular_filters bs bc bl bp table).filter
            (fun r => (bed.filter (fun b => (tabular_filters bs bc bl bp table).any
                (fun r2 => r2.query_transcript == bedHelper b))).any
              (fun b => bedHelper b == r.query_transcript)))) := rfl
  constructor
  · intro x
    rw [hfq]
    simp only [List.mem_map, List.mem_filter, List.any_eq_true, beq_iff_eq]
    constructor
    · rintro ⟨b, ⟨hb, r, hr, hqr⟩, hbx⟩
      exact ⟨⟨b, hb, hbx⟩, ⟨r, hr, by rw [hqr, hbx]⟩⟩
    · rintro ⟨⟨b, hb, hbx⟩, ⟨r, hr, hrx⟩⟩
      exact ⟨b, ⟨hb, r, hr, by rw [hrx, hbx]⟩, hbx⟩
  · rw [hfq]
    have ht1sub : List.Sublist ((tabular_filters bs bc bl bp table).filter
        (fun r => (bed.filter (fun b => (tabular_filters bs bc bl bp table).any
            (fun r2 => r2.query_transcript == bedHelper b))).any
          (fun b => bedHelper b == r.query_transcript)))
        (tabular_filters bs bc bl bp table) := List.filter_sublist _
    have hidem := tabular_filters_idem bs bc bl bp table _ ht1sub
    rw [filter_query_annot]
    rw [hidem]
    have hbedfix : (bed.filter (fun b => (tabular_filters bs bc bl bp table).any
          (fun r2 => r2.query_transcript == bedHelper b))).filter
        (fun b => ((tabular_filters bs bc bl bp table).filter
            (fun r => (bed.filter (fun b2 => (tabular_filters bs bc bl bp table).any
                (fun r2 => r2.query_transcript == bedHelper b2))).any
              (fun b2 => bedHelper b2 == r.query_transcript))).any
          (fun r => r.query_transcript == bedHelper b))
        = bed.filter (fun b => (tabular_filters bs bc bl bp table).any
            (fun r2 => r2.query_transcript == bedHelper b)) := by
      refine List.filter_eq_self.mpr (fun b hb => ?_)
      have hb2 := List.mem_filter.mp hb
      obtain ⟨r, hr, hqr⟩ := by
        have := hb2.2
        rw [List.any_eq_true] at this
        exact this
      rw [beq_iff_eq] at hqr
      rw [List.any_eq_true]
      refine ⟨r, ?_, by simp [hqr]⟩
      rw [List.mem_filter]
      refine ⟨hr, ?_⟩
      rw [List.any_eq_true]
      refine ⟨b, hb, ?_⟩
      rw [beq_iff_eq]
      exact hqr.symm
    rw [hbedfix]
    have httfix : ((tabular_filters bs bc bl bp table).filter
        (fun r => (bed.filter (fun b => (tabular_filters bs bc bl bp table).any
            (fun r2 => r2.query_transcript == bedHelper b))).any
          (fun b => bedHelper b == r.query_transcript))).filter
        (fun r => (bed.filter (fun b => (tabular_filters bs bc bl bp table).any
            (fun r2 => r2.query_transcript == bedHelper b))).any
          (fun b => bedHelper b == r.query_transcript))
        = (tabular_filters bs bc bl bp table).filter
        (fun r => (bed.filter (fun b => (tabular_filters bs bc bl bp table).any
            (fun r2 => r2.query_transcript == bedHelper b))).any
          (fun b => bedHelper b == r.query_transcript)) := by
      refine List.filter_eq_self.mpr (fun r hr => ?_)
      exact (List.mem_filter.mp hr).2
    rw [httfix]

/-- C2: for every consensus merge of N ≥ 2 haplotype tables whose class
values all lie in the caller's tier list or equal "NF", with a
duplicate-free tier list and per-table unique transcript keys, the merge
succeeds, and for every output row the elected consensus class is a member
of the tier list union {"NF"}, and it equals "NF" exactly when every
source's class value for that transcript (a missing row counting as "NF")
is "NF". -/
theorem c2_consensus_totality (tables : List (List HapRow)) (rule : List String)
    (hlen : 2 ≤ tables.length)
    (hrule : rule.Nodup)
    (hnd : ∀ tb ∈ tables, (tb.map (fun r => r.transcripts)).Nodup)
    (hvals : ∀ tb ∈ tables, ∀ r ∈ tb, r.cls ∈ rule ∨ r.cls = "NF") :
    ∃ out, merge_haplotypes tables rule = some out
      ∧ ∀ row ∈ out,
          (row.consensus ∈ rule ∨ row.consensus = "NF")
          ∧ (row.consensus = "NF"
              ↔ ∀ tb ∈ tables, (classOf tb row.transcripts).getD "NF" = "NF") := by
  have hrk := rules_rank_spec rule hrule
  have hlt : ∀ c ∈ rule, c ≠ "NF" →
      rank_of (get_haplotype_rules rule) c < rank_of (get_haplotype_rules rule) "NF" := by
    intro c hc hcnf
    rw [hrk.1]
    exact hrk.2 c hc hcnf
  by_cases h2 : tables.length = 2
  · obtain ⟨t0, t1, rfl⟩ : ∃ t0 t1, tables = [t0, t1] := by
      cases tables with
      | nil => simp at h2
      | cons t0 rest =>
        cases rest with
        | nil => simp at h2
        | cons t1 rest2 =>
          cases rest2 with
          | nil => exact ⟨t0, t1, rfl⟩
          | cons t2 rest3 =>
            simp only [List.length_cons] at h2
            omega
    refine ⟨pairedPath t0 t1 (get_haplotype_rules rule), rfl, ?_⟩
    intro row hrow
    unfold pairedPath at hrow
    obtain ⟨r, hr, rfl⟩ := List.mem_map.mp hrow
    obtain ⟨hx, hy⟩ := pairMerge_cells (hnd t0 (by simp)) (hnd t1 (by simp)) r hr
    have hxv : r.cls_x.getD "NF" ∈ rule ∨ r.cls_x.getD "NF" = "NF" := by
      rw [hx]
      exact classOf_getD_vals (hvals t0 (by simp)) r.transcripts
    have hyv : r.cls_y.getD "NF" ∈ rule ∨ r.cls_y.getD "NF" = "NF" := by
      rw [hy]
      exact classOf_getD_vals (hvals t1 (by simp)) r.transcripts
    have hspec := pairedConsensus_spec (rank_of (get_haplotype_rules rule)) rule hlt
      (r.cls_x.getD "NF") (r.cls_y.getD "NF") hxv hyv
    refine ⟨hspec.1, ?_, ?_⟩
    · intro hnf tb htb
      have hc := hspec.2.mp hnf
      rcases List.mem_cons.mp htb with h | htb1
      · rw [h]
        show (classOf t0 r.transcripts).getD "NF" = "NF"
        rw [← hx]
        exact hc.1
      · have h1 : tb = t1 := by simpa using htb1
        rw [h1]
        show (classOf t1 r.transcripts).getD "NF" = "NF"
        rw [← hy]
        exact hc.2
    · intro hall
      apply hspec.2.mpr
      constructor
      · rw [hx]
        exact hall t0 (by simp)
      · rw [hy]
        exact hall t1 (by simp)
  · have h2lt : 2 < tables.length := by omega
    obtain ⟨t0, rest, rfl⟩ : ∃ t0 rest, tables = t0 :: rest := by
      cases tables with
      | nil => simp at hlen
      | cons t0 rest => exact ⟨t0, rest, rfl⟩
    refine ⟨nwayPath t0 rest (get_haplotype_rules rule), ?_, ?_⟩
    · unfold merge_haplotypes
      rw [if_neg (by omega), if_pos h2lt]
    · intro row hrow
      unfold nwayPath at hrow
      obtain ⟨r, hr, rfl⟩ := List.mem_map.mp hrow
      have hcls : r.classes = (t0 :: rest).map (fun tb2 => classOf tb2 r.transcripts) := by
        have hres := nwayMergeAll_spec rest (nwayInit t0) [t0]
          (fun tb2 htb2 => hnd tb2 (List.mem_cons_of_mem t0 htb2))
          (nwayInit_classes t0 (hnd t0 (List.mem_cons_self t0 rest)))
          (nwayInit_keys t0) r hr
        simpa using hres
      have hf : r.classes.map (fun o => o.getD "NF")
          = (classOf t0 r.transcripts).getD "NF"
            :: rest.map (fun tb2 => (classOf tb2 r.transcripts).getD "NF") := by
        rw [hcls, List.map_map]
        rfl
      have hv2 : ∀ x ∈ (classOf t0 r.transcripts).getD "NF"
          :: rest.map (fun tb2 => (classOf tb2 r.transcripts).getD "NF"),
          x ∈ rule ∨ x = "NF" := by
        intro x hx
        rcases List.mem_cons.mp hx with h | h
        · rw [h]
          exact classOf_getD_vals (hvals t0 (List.mem_cons_self t0 rest)) r.transcripts
        · obtain ⟨tb2, htb2, rfl⟩ := List.mem_map.mp h
          exact classOf_getD_vals (hvals tb2 (List.mem_cons_of_mem t0 htb2)) r.transcripts
      have hspec := nwayConsensus_spec (rank_of (get_haplotype_rules rule)) rule hlt
        ((classOf t0 r.transcripts).getD "NF")
        (rest.map (fun tb2 => (classOf tb2 r.transcripts).getD "NF")) hv2
      constructor
      · show nwayConsensus (rank_of (get_haplotype_rules rule))
            (r.classes.map (fun o => o.getD "NF")) ∈ rule
          ∨ nwayConsensus (rank_of (get_haplotype_rules rule))
            (r.classes.map (fun o => o.getD "NF")) = "NF"
        rw [hf]
        exact hspec.1
      · show nwayConsensus (rank_of (get_haplotype_rules rule))
            (r.classes.map (fun o => o.getD "NF")) = "NF"
          ↔ ∀ tb ∈ t0 :: rest, (classOf tb r.transcripts).getD "NF" = "NF"
        rw [hf, hspec.2]
        constructor
        · intro hall tb htb
          rcases List.mem_cons.mp htb with h | h
          · rw [h]
            exact hall _ (List.mem_cons_self _ _)
          · exact hall _ (List.mem_cons_of_mem _ (List.mem_map_of_mem _ h))
        · intro hall x hx
          rcases List.mem_cons.mp hx with h | h
          · rw [h]
            exact hall t0 (List.mem_cons_self t0 rest)
          · obtain ⟨tb2, htb2, rfl⟩ := List.mem_map.mp h
            exact hall tb2 (List.mem_cons_of_mem t0 htb2)

theorem c2_witness :
    ∃ out, merge_haplotypes exHapTables ["I", "PI", "L"] = some out
      ∧ ∀ row ∈ out,
          (row.consensus ∈ ["I", "PI", "L"] ∨ row.consensus = "NF")
          ∧ (row.consensus = "NF"
              ↔ ∀ tb ∈ exHapTables, (classOf tb row.transcripts).getD "NF" = "NF") :=
  c2_consensus_totality exHapTables ["I", "PI", "L"]
    (by decide) (by decide) (by decide) (by decide)

end Postoga
